import Mathlib

/-!
# Verification of the TelegramChess server core

Shallow embedding of the chess rules engine (`SimpleChess`), the rating
helpers, matchmaking and timeout logic of the TelegramChess server, together
with proofs of the specification claims.

Modelling conventions:
* JavaScript strings are modelled as `List Char`.
* The 8×8 board is `List (List (Option Char))`; cells hold the piece letters
  used by the source (`'p' 'n' 'b' 'r' 'q' 'k'`, uppercase for white).
* JavaScript numbers are modelled as `Int` (ratings, timestamps);
  `parseInt` returning `NaN` is modelled as `Option Int` with `none` for NaN,
  which reproduces the JS behaviour that every comparison with NaN is false.
* In-place mutation (`_makeMove` / `undo`) is modelled by pure state passing;
  the theorem `undo_makeMove_eq` shows the in-place apply/check/undo pattern
  of `moves()` is equivalent to evaluating the check on the updated copy.
* Places where the JS code would throw a `TypeError` (indexing `undefined`)
  are modelled with `Except Unit`, `.error ()` standing for the thrown error.
-/

/-- `String.prototype.toUpperCase` restricted to a single ASCII character. -/
def jsToUpper (c : Char) : Char :=
  if 'a' ≤ c ∧ c ≤ 'z' then Char.ofNat (c.toNat - 32) else c

/-- `String.prototype.toLowerCase` restricted to a single ASCII character. -/
def jsToLower (c : Char) : Char :=
  if 'A' ≤ c ∧ c ≤ 'Z' then Char.ofNat (c.toNat + 32) else c

/-- The whitespace test of the regex `\s` (ASCII part, which is all the
source ever feeds it). -/
def isWsChar (c : Char) : Bool :=
  c == ' ' || c == '\t' || c == '\n' || c == '\r' || c == '\x0b' || c == '\x0c'

/-- `parseInt(c, 10)` on a single character: `none` models `NaN`. -/
def parseIntChar (c : Char) : Option Int :=
  if '0' ≤ c ∧ c ≤ '9' then some ((c.toNat : Int) - 48) else none

/-- Decimal digit character for `n ≤ 9` (JS number-to-string coercion for a
one-digit count). -/
def digitChar (n : Nat) : Char := Char.ofNat (48 + n)

/-- List indexing, `l[n]` as used read-only on JS arrays (missing index is
`undefined` = `none`). -/
def nth : List α → Nat → Option α
  | [], _ => none
  | a :: _, 0 => some a
  | _ :: l, n + 1 => nth l n

/-- Assignment `l[n] = b` for an index inside the array (out-of-range writes
never happen on the 8×8 board). -/
def setN : List α → Nat → α → List α
  | [], _, _ => []
  | _ :: l, 0, b => b :: l
  | a :: l, n + 1, b => a :: setN l n b

abbrev Cell := Option Char
abbrev Board := List (List Cell)

/-- `this.board[r]` (a missing row reads as the empty row). -/
def rowAt (b : Board) (r : Nat) : List Cell := (nth b r).getD []

/-- `this.board[r][c]` (absent cell reads as empty, which matches the JS
falsiness checks on `board[r][c]` at every in-bounds access). -/
def cellAt (b : Board) (r c : Nat) : Cell := (nth (rowAt b r) c).getD none

/-- `this.board[r][c] = v`. -/
def setCell (b : Board) (r c : Nat) (v : Cell) : Board :=
  setN b r (setN (rowAt b r) c v)

/-- `board[r][c]` for possibly negative intermediate coordinates. -/
def cellAtI (b : Board) (r c : Int) : Cell :=
  if 0 ≤ r ∧ 0 ≤ c then cellAt b r.toNat c.toNat else none

/-- `SimpleChess._inBounds`. -/
def inBoundsB (r c : Int) : Bool :=
  decide (0 ≤ r) && decide (r < 8) && decide (0 ≤ c) && decide (c < 8)

/-- `SimpleChess._coordsToSquare`. -/
def coordsToSquare (r c : Nat) : List Char :=
  [Char.ofNat (97 + c), digitChar (8 - r)]

/-- `SimpleChess._squareToCoords`.  The rank component is `Option Int`
(`none` = NaN, produced when the second character is not a digit); the JS
range check `rank < 0 || rank > 7` is false for NaN, so a NaN rank passes. -/
def squareToCoords (s : List Char) : Option (Option Int × Int) :=
  match s with
  | [c0, c1] =>
    let file : Int := (c0.toNat : Int) - 97
    let rank : Option Int := (parseIntChar c1).map (fun d => 8 - d)
    let rankBad : Bool :=
      match rank with
      | some rk => decide (rk < 0) || decide (7 < rk)
      | none => false
    if file < 0 ∨ 7 < file ∨ rankBad = true then none
    else some (rank, file)
  | _ => none

/-- The fully-valid reading of `_squareToCoords`, used by the internal
callers that always receive well-formed squares. -/
def sqCoordsN (s : List Char) : Option (Nat × Nat) :=
  match squareToCoords s with
  | some (some rk, f) => some (rk.toNat, f.toNat)
  | _ => none

/-- A generated/applied move (`{ from, to, piece, captured?, promotion? }`). -/
structure Move where
  fromSq : List Char
  toSq : List Char
  piece : Char
  captured : Option Char := none
  promotion : Option Char := none
deriving DecidableEq

/-- One `_history` entry (`{ mv, captured, turn }`). -/
structure HistEntry where
  mv : Move
  captured : Cell
  turn : Char
deriving DecidableEq

/-- The mutable state of a `SimpleChess` instance. -/
structure GameState where
  board : Board
  turnColor : Char
  hist : List HistEntry
deriving DecidableEq

/-- `SimpleChess.reset` / the freshly constructed engine. -/
def initialState : GameState :=
  { board :=
      [ [some 'r', some 'n', some 'b', some 'q', some 'k', some 'b', some 'n', some 'r'],
        [some 'p', some 'p', some 'p', some 'p', some 'p', some 'p', some 'p', some 'p'],
        [none, none, none, none, none, none, none, none],
        [none, none, none, none, none, none, none, none],
        [none, none, none, none, none, none, none, none],
        [none, none, none, none, none, none, none, none],
        [some 'P', some 'P', some 'P', some 'P', some 'P', some 'P', some 'P', some 'P'],
        [some 'R', some 'N', some 'B', some 'Q', some 'K', some 'B', some 'N', some 'R'] ],
    turnColor := 'w',
    hist := [] }

def knightDirs : List (Int × Int) :=
  [(-2, -1), (-2, 1), (-1, -2), (-1, 2), (1, -2), (1, 2), (2, -1), (2, 1)]

def bishopDirs : List (Int × Int) := [(-1, -1), (-1, 1), (1, -1), (1, 1)]

def rookDirs : List (Int × Int) := [(-1, 0), (1, 0), (0, -1), (0, 1)]

def queenDirs : List (Int × Int) :=
  [(-1, -1), (-1, 1), (1, -1), (1, 1), (-1, 0), (1, 0), (0, -1), (0, 1)]

def kingDirs : List (Int × Int) :=
  [(-1, -1), (-1, 0), (-1, 1), (0, -1), (0, 1), (1, -1), (1, 0), (1, 1)]

/-- Knight/king single-offset move generation (the shared push pattern of the
`n` and `k` branches of `_generatePieceMoves`). -/
def mkSimple (b : Board) (isWhite : Bool) (fromSq : List Char) (pieceL : Char)
    (rr cc : Int) : List Move :=
  if inBoundsB rr cc then
    match cellAtI b rr cc with
    | some target =>
      if (decide (target = jsToUpper target)) = isWhite then []
      else [{ fromSq := fromSq, toSq := coordsToSquare rr.toNat cc.toNat,
              piece := pieceL, captured := some (jsToLower target) }]
    | none =>
      [{ fromSq := fromSq, toSq := coordsToSquare rr.toNat cc.toNat, piece := pieceL }]
  else []

/-- The `while` loop of the sliding-piece branch.  The fuel `8` strictly
exceeds the number of iterations any ray inside an 8×8 board can make, so the
`0` case is unreachable. -/
def ray (b : Board) (isWhite : Bool) (fromSq : List Char) (pieceL : Char)
    (dr dc : Int) : Nat → Int → Int → List Move
  | 0, _, _ => []
  | fuel + 1, rr, cc =>
    if inBoundsB rr cc then
      match cellAtI b rr cc with
      | some target =>
        if (decide (target = jsToUpper target)) = isWhite then []
        else [{ fromSq := fromSq, toSq := coordsToSquare rr.toNat cc.toNat,
                piece := pieceL, captured := some (jsToLower target) }]
      | none =>
        { fromSq := fromSq, toSq := coordsToSquare rr.toNat cc.toNat, piece := pieceL }
          :: ray b isWhite fromSq pieceL dr dc fuel (rr + dr) (cc + dc)
    else []

/-- The pawn branch of `_generatePieceMoves`. -/
def pawnMoves (b : Board) (isWhite : Bool) (fromSq : List Char) (pieceL : Char)
    (r c : Int) : List Move :=
  let dir : Int := if isWhite then -1 else 1
  let startRow : Int := if isWhite then 6 else 1
  let r1 := r + dir
  let fwd :=
    if inBoundsB r1 c ∧ cellAtI b r1 c = none then
      let m1 :=
        if r1 = 0 ∨ r1 = 7 then
          [{ fromSq := fromSq, toSq := coordsToSquare r1.toNat c.toNat,
             piece := pieceL, promotion := some 'q' }]
        else
          [{ fromSq := fromSq, toSq := coordsToSquare r1.toNat c.toNat, piece := pieceL }]
      let dbl :=
        if r = startRow ∧ cellAtI b (r + 2 * dir) c = none then
          [{ fromSq := fromSq, toSq := coordsToSquare (r + 2 * dir).toNat c.toNat,
             piece := pieceL }]
        else []
      m1 ++ dbl
    else []
  let caps := ([-1, 1] : List Int).flatMap fun dcap =>
    let rr := r + dir
    let cc := c + dcap
    if inBoundsB rr cc then
      match cellAtI b rr cc with
      | some target =>
        if (decide (target = jsToUpper target)) = isWhite then []
        else if rr = 0 ∨ rr = 7 then
          [{ fromSq := fromSq, toSq := coordsToSquare rr.toNat cc.toNat,
             piece := pieceL, captured := some (jsToLower target),
             promotion := some 'q' }]
        else
          [{ fromSq := fromSq, toSq := coordsToSquare rr.toNat cc.toNat,
             piece := pieceL, captured := some (jsToLower target) }]
      | none => []
    else []
  fwd ++ caps

/-- `SimpleChess._generatePieceMoves` (the board and the turn colour are the
two pieces of instance state it reads). -/
def generatePieceMoves (b : Board) (turnColor : Char) (r c : Nat) : List Move :=
  match cellAt b r c with
  | none => []
  | some piece =>
    let isWhite : Bool := decide (piece = jsToUpper piece)
    let color : Char := if isWhite then 'w' else 'b'
    if color ≠ turnColor then []
    else
      let fromSquare := coordsToSquare r c
      let lower := jsToLower piece
      if lower = 'p' then pawnMoves b isWhite fromSquare lower (r : Int) (c : Int)
      else if lower = 'n' then
        knightDirs.flatMap fun d =>
          mkSimple b isWhite fromSquare lower ((r : Int) + d.1) ((c : Int) + d.2)
      else if lower = 'b' then
        bishopDirs.flatMap fun d =>
          ray b isWhite fromSquare lower d.1 d.2 8 ((r : Int) + d.1) ((c : Int) + d.2)
      else if lower = 'r' then
        rookDirs.flatMap fun d =>
          ray b isWhite fromSquare lower d.1 d.2 8 ((r : Int) + d.1) ((c : Int) + d.2)
      else if lower = 'q' then
        queenDirs.flatMap fun d =>
          ray b isWhite fromSquare lower d.1 d.2 8 ((r : Int) + d.1) ((c : Int) + d.2)
      else if lower = 'k' then
        kingDirs.flatMap fun d =>
          mkSimple b isWhite fromSquare lower ((r : Int) + d.1) ((c : Int) + d.2)
      else []

/-- Row-major scan order of the two nested `for` loops over the board. -/
def squaresRM : List (Nat × Nat) :=
  (List.range 8).flatMap fun r => (List.range 8).map fun c => (r, c)

/-- Does the destination of `mv` parse to the king square (the inner loop of
`_isInCheck`; a NaN rank compares false against `kingRow`). -/
def toHitsKing (mv : Move) (kr kc : Nat) : Bool :=
  match squareToCoords mv.toSq with
  | some (some r, f) => decide (r = (kr : Int)) && decide (f = (kc : Int))
  | _ => false

/-- The king test of the locating scan in `_isInCheck`:
`piece.toLowerCase() === 'k'` of the matching colour (`isWhite` there is
`color === 'w'`). -/
def isKingCellB (b : Board) (color : Char) (r c : Nat) : Bool :=
  match cellAt b r c with
  | some piece =>
    jsToLower piece == 'k' && (decide (color = 'w') == decide (piece = jsToUpper piece))
  | none => false

/-- The king-locating scan of `_isInCheck`: first matching-colour king in
row-major order (`-1` sentinel modelled by `Option`). -/
def findKing (b : Board) (color : Char) : Option (Nat × Nat) :=
  squaresRM.find? fun rc => isKingCellB b color rc.1 rc.2

/-- `SimpleChess._isInCheck`.  The source temporarily overwrites
`this.turnColor` with the scanned piece's colour before generating its moves
and restores it afterwards; generating with that colour directly is the same
thing, and the net state is unchanged, so the function is pure in the board. -/
def isInCheck (b : Board) (color : Char) : Bool :=
  match findKing b color with
  | none => false
  | some (kr, kc) =>
    squaresRM.any fun rc =>
      match cellAt b rc.1 rc.2 with
      | none => false
      | some piece =>
        let pieceIsWhite : Bool := decide (piece = jsToUpper piece)
        if pieceIsWhite = decide (color = 'w') then false
        else
          (generatePieceMoves b (if pieceIsWhite then 'w' else 'b') rc.1 rc.2).any
            fun mv => toHitsKing mv kr kc

/-- `SimpleChess._makeMove`.  The source indexes the board with the parsed
coordinates unconditionally; for the moves the engine ever feeds it the
squares always parse (the fallthrough branch, where JS would throw, returns
the state unchanged and is proved unreachable for generated moves). -/
def makeMove (st : GameState) (mv : Move) : GameState :=
  match sqCoordsN mv.fromSq, sqCoordsN mv.toSq with
  | some (r1, c1), some (r2, c2) =>
    let piece := cellAt st.board r1 c1
    let captured := cellAt st.board r2 c2
    let hist' := { mv := mv, captured := captured, turn := st.turnColor } :: st.hist
    let b1 := setCell st.board r2 c2 piece
    let b2 := setCell b1 r1 c1 none
    let b3 :=
      match mv.promotion, piece with
      | some promo, some p =>
        setCell b2 r2 c2 (some (if p = jsToUpper p then jsToUpper promo else jsToLower promo))
      | _, _ => b2
    { board := b3,
      turnColor := if st.turnColor = 'w' then 'b' else 'w',
      hist := hist' }
  | _, _ => st

/-- `SimpleChess.undo`; returns the new state and the popped move (`none`
when the history is empty). -/
def undo (st : GameState) : GameState × Option Move :=
  match st.hist with
  | [] => (st, none)
  | entry :: rest =>
    match sqCoordsN entry.mv.fromSq, sqCoordsN entry.mv.toSq with
    | some (r1, c1), some (r2, c2) =>
      let piece := cellAt st.board r2 c2
      let restore : Cell :=
        match entry.mv.promotion, piece with
        | some _, some p => some (if p = jsToUpper p then 'P' else 'p')
        | some _, none => none
        | none, _ => piece
      let b1 := setCell st.board r1 c1 restore
      let b2 := setCell b1 r2 c2 entry.captured
      ({ board := b2, turnColor := entry.turn, hist := rest }, some entry.mv)
    | _, _ => (st, some entry.mv)

/-- The legality filter of `SimpleChess.moves`: simulate the move and reject
it when the mover's own king would be attacked.  The source performs
`_makeMove mv; _isInCheck (flip of new turn); undo()`; by
`undo_makeMove_eq` the undo restores the state exactly, so evaluating the
check on the updated copy is the same computation. -/
def legalFilter (st : GameState) (pseudo : List Move) : List Move :=
  pseudo.filter fun mv =>
    let st' := makeMove st mv
    !(isInCheck st'.board (if st'.turnColor = 'w' then 'b' else 'w'))

/-- The whole-board pseudo-move collection of `SimpleChess.moves` when no
square is given. -/
def movesAllPseudo (st : GameState) : List Move :=
  squaresRM.flatMap fun rc =>
    match cellAt st.board rc.1 rc.2 with
    | none => []
    | some piece =>
      let isWhite : Bool := decide (piece = jsToUpper piece)
      if (if isWhite then 'w' else 'b') ≠ st.turnColor then []
      else generatePieceMoves st.board st.turnColor rc.1 rc.2

/-- All legal moves of the side to move (`moves()` with no square, verbose;
the non-verbose form only reformats each entry as `from+to+promotion`). -/
def movesAll (st : GameState) : List Move := legalFilter st (movesAllPseudo st)

/-- `SimpleChess.moves(opts)` with an optional square.  `opts.square || null`
treats a supplied but empty square string as falsy, so it falls through to
the whole-board scan of the side to move.  `.error ()` models the
`TypeError` the source raises when `_squareToCoords` hands back a NaN rank
and `board[NaN][c]` is read. -/
def movesQ (st : GameState) (squareOpt : Option (List Char)) :
    Except Unit (List Move) :=
  match squareOpt with
  | none => .ok (movesAll st)
  | some sq =>
    if sq = [] then .ok (movesAll st)
    else
      match squareToCoords sq with
      | none => .ok []
      | some (none, _) => .error ()
      | some (some rk, f) =>
        .ok (legalFilter st (generatePieceMoves st.board st.turnColor rk.toNat f.toNat))

/-- A move request as the server builds it (`{ from, to, promotion? }`). -/
structure MoveReq where
  fromSq : List Char
  toSq : List Char
  promotion : Option Char := none
deriving DecidableEq

/-- `SimpleChess.move` on a structured request (the string form is parsed into
exactly this shape before the scan).  Returns the resolved move and the new
state; `none` and the unchanged state on no match. -/
def move (st : GameState) (req : MoveReq) : Option Move × GameState :=
  match (movesAll st).find? (fun lm =>
      lm.fromSq == req.fromSq && lm.toSq == req.toSq &&
        (match req.promotion with
         | some p => lm.promotion == some p
         | none => true)) with
  | some lm => (some lm, makeMove st lm)
  | none => (none, st)

/-- `SimpleChess.get(square)` (named `getSquare` here to avoid clashing with the monadic `get`): piece type and colour, `none` for empty or an
unparseable square, `.error ()` for the NaN-rank `TypeError`. -/
def getSquare (st : GameState) (square : List Char) :
    Except Unit (Option (Char × Char)) :=
  match squareToCoords square with
  | none => .ok none
  | some (none, _) => .error ()
  | some (some rk, f) =>
    match cellAt st.board rk.toNat f.toNat with
    | none => .ok none
    | some piece =>
      .ok (some (jsToLower piece, if piece = jsToUpper piece then 'w' else 'b'))

/-- Leading-whitespace drop of `String.prototype.trim`. -/
def trimChars (s : List Char) : List Char :=
  ((s.dropWhile isWsChar).reverse.dropWhile isWsChar).reverse

/-- Accumulator worker for splitting on runs of whitespace. -/
def tokenizeGo : List Char → List Char → List (List Char)
  | [], tok => if tok = [] then [] else [tok.reverse]
  | c :: rest, tok =>
    if isWsChar c then
      if tok = [] then tokenizeGo rest [] else tok.reverse :: tokenizeGo rest []
    else tokenizeGo rest (c :: tok)

/-- `str.split(/\s+/)` on an already-trimmed string (`''` still yields
`['']`, as in JS). -/
def splitWsT (s : List Char) : List (List Char) :=
  match s with
  | [] => [[]]
  | _ => tokenizeGo s []

/-- Accumulator worker for `str.split(sep)`. -/
def splitOnGo (sep : Char) : List Char → List Char → List (List Char)
  | [], tok => [tok.reverse]
  | c :: rest, tok =>
    if c = sep then tok.reverse :: splitOnGo sep rest []
    else splitOnGo sep rest (c :: tok)

/-- `str.split(sep)` for a single-character separator. -/
def splitOnC (sep : Char) (s : List Char) : List (List Char) := splitOnGo sep s []

/-- The per-rank character scan of `SimpleChess.load`.  The JS loop keeps
`col` equal to `row.length` throughout, so the `col > 7` break is the length
test. -/
def parseCells : List Char → List Cell → List Cell
  | [], row => row
  | ch :: rest, row =>
    if 7 < row.length then row
    else if '1' ≤ ch ∧ ch ≤ '8' then
      parseCells rest (row ++ List.replicate (ch.toNat - 48) none)
    else parseCells rest (row ++ [some ch])

/-- One rank of `load`: best-effort scan then pad to 8 files. -/
def parseRow (chars : List Char) : List Cell :=
  let row := parseCells chars []
  row ++ List.replicate (8 - row.length) none

/-- `SimpleChess.load(fen)`: returns the updated engine and the success flag;
on failure the prior state is returned untouched. -/
def load (st : GameState) (fen : List Char) : GameState × Bool :=
  let parts := splitWsT (trimChars fen)
  let placement := (nth parts 0).getD []
  let turnTok : List Char :=
    match nth parts 1 with
    | some t => if t = [] then ['w'] else t
    | none => ['w']
  let rows := splitOnC '/' placement
  if rows.length = 8 then
    ({ board := rows.map parseRow,
       turnColor := if turnTok = ['b'] then 'b' else 'w',
       hist := [] }, true)
  else (st, false)

/-- The run-length encoder of one rank in `SimpleChess.fen` (`empty` is the
pending count of consecutive empty cells). -/
def fenRowGo : List Cell → Nat → List Char
  | [], e => if 0 < e then [digitChar e] else []
  | none :: rest, e => fenRowGo rest (e + 1)
  | some ch :: rest, e =>
    (if 0 < e then [digitChar e] else []) ++ ch :: fenRowGo rest 0

/-- The placement part of `fen()`: each rank reads files 0–7 and ranks are
joined with `/` (the source loops `r = 0..7`; on the engine's boards, which
always have exactly 8 rows, that is exactly a traversal of the row list). -/
def fenPlacementGo : List (List Cell) → List Char
  | [] => []
  | [row] => fenRowGo (row.take 8) 0
  | row :: rest => fenRowGo (row.take 8) 0 ++ '/' :: fenPlacementGo rest

/-- `SimpleChess.fen()`. -/
def fen (st : GameState) : List Char :=
  fenPlacementGo st.board ++
    ' ' :: (if st.turnColor = 'w' then 'w' else 'b') ::
      [' ', '-', ' ', '-', ' ', '0', ' ', '1']

/-- The scoreboard `Map`, modelled as an association list where `lookup`
finds the most recent binding (the scoreboard is never iterated, so only the
lookup semantics of `Map` matters). -/
abbrev Scoreboard := List (String × Int)

/-- `getRating(userId)`. -/
def getRating (sb : Scoreboard) (userId : String) : Int :=
  (sb.lookup userId).getD 1500

/-- `scoreboard.set(id, v)`. -/
def sbSet (sb : Scoreboard) (userId : String) (v : Int) : Scoreboard :=
  (userId, v) :: sb

/-- `updateRatings` of the final revision: winner +5; loser −4 when rated
above the winner, else −3; floored at 0. -/
def updateRatings (sb : Scoreboard) (winnerId loserId : String) : Scoreboard :=
  let winnerRating := getRating sb winnerId
  let loserRating := getRating sb loserId
  let newWinnerRating := winnerRating + 5
  let penalty : Int := if winnerRating < loserRating then 4 else 3
  let newLoserRating := max 0 (loserRating - penalty)
  sbSet (sbSet sb winnerId newWinnerRating) loserId newLoserRating

/-- `updateRatings` of the earlier revision: winner +5; loser −4 when rated
below the winner, else −3; floored at 1. -/
def updateRatingsV0 (sb : Scoreboard) (winnerId loserId : String) : Scoreboard :=
  let winnerRating := getRating sb winnerId
  let loserRating := getRating sb loserId
  let newWinnerRating := winnerRating + 5
  let penalty : Int := if loserRating < winnerRating then 4 else 3
  let newLoserRating := max 1 (loserRating - penalty)
  sbSet (sbSet sb winnerId newWinnerRating) loserId newLoserRating

/-- One game record of the `games` map (the fields `checkTimeout` and the
claims read). -/
structure Game where
  playersW : String
  playersB : String
  engine : GameState
  over : Bool
  result : Option (Option String × Option String × String)
  lastMove : Int
deriving DecidableEq

def MOVE_TIMEOUT_MS : Int := 5 * 60 * 1000

/-- `game.players[color].id` for `color ∈ \x7b'w','b'\x7d`. -/
def playerAt (g : Game) (color : Char) : String :=
  if color = 'w' then g.playersW else g.playersB

/-- `checkTimeout(game)`, with `Date.now()` passed in as `now` and the
scoreboard threaded explicitly.  `game.lastMove &&` is the JS truthiness
test on the timestamp. -/
def checkTimeout (g : Game) (sb : Scoreboard) (now : Int) :
    Game × Scoreboard × Bool :=
  if g.over then (g, sb, false)
  else if g.lastMove ≠ 0 ∧ MOVE_TIMEOUT_MS < now - g.lastMove then
    let loserColor := g.engine.turnColor
    let winnerColor := if loserColor = 'w' then 'b' else 'w'
    let winnerId := playerAt g winnerColor
    let loserId := playerAt g loserColor
    let sb2 := updateRatings sb winnerId loserId
    ({ g with over := true, result := some (some winnerId, some loserId, "timeout") },
      sb2, true)
  else (g, sb, false)

/-- One waiting entry of the matchmaking queue. -/
structure QueueEntry where
  id : String
  name : String
  rating : Option Int
  ts : Int
deriving DecidableEq

/-- The queue `Map` in its iteration order (JS `Map` iterates insertion
order). -/
abbrev Queue := List QueueEntry

/-- `u.rating ?? 1500`. -/
def entryRating (e : QueueEntry) : Int := e.rating.getD 1500

/-- The scan loop of `findBestOpponent`: `bestDiff` starts at `Infinity`
(`none`) and every finite difference beats it. -/
def findBestAux (player : QueueEntry) :
    Queue → Option String → Option Int → Option String
  | [], bestId, _ => bestId
  | e :: rest, bestId, bestDiff =>
    if e.id = player.id then findBestAux player rest bestId bestDiff
    else
      let diff : Int := |entryRating e - entryRating player|
      let better : Bool :=
        match bestDiff with
        | none => true
        | some bd => decide (diff < bd)
      if better then findBestAux player rest (some e.id) (some diff)
      else findBestAux player rest bestId bestDiff

/-- `queue.get(id)`. -/
def queueGet (q : Queue) (id : String) : Option QueueEntry :=
  q.find? fun e => e.id == id

/-- `findBestOpponent(player)` (the final `bestId ? queue.get(bestId) : null`
treats the empty string as falsy). -/
def findBestOpponent (player : QueueEntry) (q : Queue) : Option QueueEntry :=
  match findBestAux player q none none with
  | some bestId => if bestId = "" then none else queueGet q bestId
  | none => none

/-- States reachable from the initial position through successful
applications of `move`. -/
inductive Reachable : GameState → Prop where
  | init : Reachable initialState
  | step {st : GameState} {req : MoveReq} {lm : Move} {st' : GameState} :
      Reachable st → move st req = (some lm, st') → Reachable st'

/-- The piece letters that can ever sit on a reachable board. -/
def pieceChars : List Char :=
  ['p', 'n', 'b', 'r', 'q', 'k', 'P', 'N', 'B', 'R', 'Q', 'K']

/-- A cell is empty or holds a known piece letter. -/
def validCellB (cell : Cell) : Bool :=
  match cell with
  | none => true
  | some p => pieceChars.contains p

/-- Boards the engine can actually reach: 8 rows of 8 known cells. -/
def WFBoard (b : Board) : Prop :=
  b.length = 8 ∧ ∀ row ∈ b, row.length = 8 ∧ ∀ cell ∈ row, validCellB cell = true

/-- Engine-state invariant maintained by move application. -/
def WFState (st : GameState) : Prop :=
  WFBoard st.board ∧ (st.turnColor = 'w' ∨ st.turnColor = 'b')

/-! ## Basic lemmas about list indexing and update -/

theorem length_setN {α : Type _} (l : List α) (n : Nat) (a : α) :
    (setN l n a).length = l.length := by
  induction l generalizing n with
  | nil => rfl
  | cons x xs ih =>
    cases n with
    | zero => rfl
    | succ m => simpa [setN] using ih m

theorem nth_setN_self {α : Type _} (l : List α) (n : Nat) (a : α) (h : n < l.length) :
    nth (setN l n a) n = some a := by
  induction l generalizing n with
  | nil => simp at h
  | cons x xs ih =>
    cases n with
    | zero => rfl
    | succ m => exact ih m (by simpa using h)

theorem nth_setN_ne {α : Type _} (l : List α) (n m : Nat) (a : α) (h : n ≠ m) :
    nth (setN l n a) m = nth l m := by
  induction l generalizing n m with
  | nil => rfl
  | cons x xs ih =>
    cases n with
    | zero =>
      cases m with
      | zero => exact absurd rfl h
      | succ k => rfl
    | succ n' =>
      cases m with
      | zero => rfl
      | succ k => exact ih n' k (fun hh => h (by rw [hh]))

theorem setN_setN_self {α : Type _} (l : List α) (n : Nat) (a b : α) :
    setN (setN l n a) n b = setN l n b := by
  induction l generalizing n with
  | nil => rfl
  | cons x xs ih =>
    cases n with
    | zero => rfl
    | succ m => simpa [setN] using ih m

theorem setN_comm {α : Type _} (l : List α) (n m : Nat) (a b : α) (h : n ≠ m) :
    setN (setN l n a) m b = setN (setN l m b) n a := by
  induction l generalizing n m with
  | nil => rfl
  | cons x xs ih =>
    cases n with
    | zero =>
      cases m with
      | zero => exact absurd rfl h
      | succ k => rfl
    | succ n' =>
      cases m with
      | zero => rfl
      | succ k => simpa [setN] using ih n' k (fun hh => h (by rw [hh]))

theorem setN_nth_self {α : Type _} (l : List α) (n : Nat) (a : α)
    (h : nth l n = some a) : setN l n a = l := by
  induction l generalizing n with
  | nil => rfl
  | cons x xs ih =>
    cases n with
    | zero => simpa [nth, setN] using h.symm
    | succ m => simpa [setN] using ih m (by simpa [nth] using h)

theorem setN_oob {α : Type _} (l : List α) (n : Nat) (a : α) (h : l.length ≤ n) :
    setN l n a = l := by
  induction l generalizing n with
  | nil => rfl
  | cons x xs ih =>
    cases n with
    | zero => simp at h
    | succ m => simpa [setN] using ih m (by simpa using h)

theorem nth_oob {α : Type _} (l : List α) (n : Nat) (h : l.length ≤ n) :
    nth l n = none := by
  induction l generalizing n with
  | nil => rfl
  | cons x xs ih =>
    cases n with
    | zero => simp at h
    | succ m => simpa [nth] using ih m (by simpa using h)

theorem nth_lt {α : Type _} (l : List α) (n : Nat) (a : α) (h : nth l n = some a) :
    n < l.length := by
  by_contra hn
  rw [nth_oob l n (Nat.le_of_not_lt hn)] at h
  exact Option.noConfusion h

theorem mem_of_mem_setN {α : Type _} {l : List α} {n : Nat} {a x : α}
    (h : x ∈ setN l n a) : x ∈ l ∨ x = a := by
  induction l generalizing n with
  | nil => simp [setN] at h
  | cons y ys ih =>
    cases n with
    | zero =>
      rcases List.mem_cons.mp h with h1 | h1
      · exact Or.inr h1
      · exact Or.inl (List.mem_cons_of_mem _ h1)
    | succ m =>
      rcases List.mem_cons.mp h with h1 | h1
      · exact Or.inl (h1 ▸ List.mem_cons_self _ _)
      · rcases ih h1 with h2 | h2
        · exact Or.inl (List.mem_cons_of_mem _ h2)
        · exact Or.inr h2

theorem nth_mem {α : Type _} {l : List α} {n : Nat} {a : α} (h : nth l n = some a) :
    a ∈ l := by
  induction l generalizing n with
  | nil => exact Option.noConfusion h
  | cons x xs ih =>
    cases n with
    | zero => exact (Option.some.injEq .. ▸ h : x = a) ▸ List.mem_cons_self _ _
    | succ m => exact List.mem_cons_of_mem _ (ih h)

/-! ## Square/coordinate conversion facts -/

theorem squareToCoords_coordsToSquare :
    ∀ r < 8, ∀ c < 8, squareToCoords (coordsToSquare r c) =
      some (some (r : Int), (c : Int)) := by decide

theorem sqCoordsN_coordsToSquare :
    ∀ r < 8, ∀ c < 8, sqCoordsN (coordsToSquare r c) = some (r, c) := by decide

set_option maxRecDepth 8000 in
theorem coordsToSquare_inj :
    ∀ rc ∈ squaresRM, ∀ rc' ∈ squaresRM,
      coordsToSquare rc.1 rc.2 = coordsToSquare rc'.1 rc'.2 → rc = rc' := by decide

theorem mem_squaresRM {rc : Nat × Nat} :
    rc ∈ squaresRM ↔ rc.1 < 8 ∧ rc.2 < 8 := by
  obtain ⟨r, c⟩ := rc
  constructor
  · intro h
    simp only [squaresRM, List.mem_flatMap, List.mem_map, List.mem_range] at h
    obtain ⟨a, ha, b, hb, hab⟩ := h
    obtain ⟨rfl, rfl⟩ := Prod.mk.injEq .. ▸ hab
    exact ⟨ha, hb⟩
  · intro ⟨h1, h2⟩
    simp only [squaresRM, List.mem_flatMap, List.mem_map, List.mem_range]
    exact ⟨r, h1, c, h2, rfl⟩

/-! ## C3: rating adjustment -/

theorem getRating_sbSet_same (sb : Scoreboard) (id : String) (v : Int) :
    getRating (sbSet sb id v) id = v := by
  simp [getRating, sbSet, List.lookup]

theorem getRating_sbSet_ne (sb : Scoreboard) (id id' : String) (v : Int)
    (h : id' ≠ id) : getRating (sbSet sb id v) id' = getRating sb id' := by
  simp [getRating, sbSet, List.lookup, beq_false_of_ne h]

/-- C3: after any decisive game the final-revision `updateRatings` raises the
winner's stored rating by exactly 5 and sets the loser's rating to the prior
rating minus the penalty floored at 0 (hence never negative); the earlier
revision does the same with floor 1. -/
theorem updateRatings_adjusts (sb : Scoreboard) (w l : String) (hne : w ≠ l) :
    getRating (updateRatings sb w l) w = getRating sb w + 5 ∧
    getRating (updateRatings sb w l) l =
      max 0 (getRating sb l - (if getRating sb w < getRating sb l then 4 else 3)) ∧
    0 ≤ getRating (updateRatings sb w l) l ∧
    getRating (updateRatingsV0 sb w l) w = getRating sb w + 5 ∧
    getRating (updateRatingsV0 sb w l) l =
      max 1 (getRating sb l - (if getRating sb l < getRating sb w then 4 else 3)) ∧
    1 ≤ getRating (updateRatingsV0 sb w l) l := by
  unfold updateRatings updateRatingsV0
  refine ⟨?_, ?_, ?_, ?_, ?_, ?_⟩
  · rw [getRating_sbSet_ne _ _ _ _ hne, getRating_sbSet_same]
  · rw [getRating_sbSet_same]
  · rw [getRating_sbSet_same]; exact le_max_left _ _
  · rw [getRating_sbSet_ne _ _ _ _ hne, getRating_sbSet_same]
  · rw [getRating_sbSet_same]
  · rw [getRating_sbSet_same]; exact le_max_left _ _

theorem updateRatings_adjusts_witness :
    getRating (updateRatings [] "alice" "bob") "alice" =
        getRating ([] : Scoreboard) "alice" + 5 ∧
    getRating (updateRatings [] "alice" "bob") "bob" =
      max 0 (getRating ([] : Scoreboard) "bob" -
        (if getRating ([] : Scoreboard) "alice" < getRating ([] : Scoreboard) "bob"
          then 4 else 3)) ∧
    0 ≤ getRating (updateRatings [] "alice" "bob") "bob" ∧
    getRating (updateRatingsV0 [] "alice" "bob") "alice" =
        getRating ([] : Scoreboard) "alice" + 5 ∧
    getRating (updateRatingsV0 [] "alice" "bob") "bob" =
      max 1 (getRating ([] : Scoreboard) "bob" -
        (if getRating ([] : Scoreboard) "bob" < getRating ([] : Scoreboard) "alice"
          then 4 else 3)) ∧
    1 ≤ getRating (updateRatingsV0 [] "alice" "bob") "bob" :=
  updateRatings_adjusts [] "alice" "bob" (by decide)

/-! ## C9: missing king tolerated by the check query -/

/-- C9: on a board where the given colour has no king anywhere in the 8×8
scan range, `_isInCheck(color)` silently answers `false`. -/
theorem isInCheck_no_king (b : Board) (color : Char)
    (h : ∀ r < 8, ∀ c < 8, isKingCellB b color r c = false) :
    isInCheck b color = false := by
  have hfk : findKing b color = none := by
    apply List.find?_eq_none.mpr
    intro rc hrc
    have := mem_squaresRM.mp hrc
    simp [h rc.1 this.1 rc.2 this.2]
  simp [isInCheck, hfk]

theorem isInCheck_no_king_witness :
    isInCheck (List.replicate 8 (List.replicate 8 none)) 'w' = false :=
  isInCheck_no_king _ 'w' (by decide)

/-! ## C5: timeout forfeiture -/

/-- C5: `checkTimeout` fires exactly when the game is still in progress and
the time since the last move strictly exceeds the timeout duration; it then
finishes the game with reason `timeout`, the side to move as loser, the
opposite side as winner, and applies the rating update.  When the game is
already over, or the elapsed time is at most the duration, nothing changes
and no timeout is reported; in particular a second call after a fired
timeout is a no-op. -/
theorem checkTimeout_spec (g : Game) (sb : Scoreboard) (now : Int) :
    (g.over = true → checkTimeout g sb now = (g, sb, false)) ∧
    (now - g.lastMove ≤ MOVE_TIMEOUT_MS → checkTimeout g sb now = (g, sb, false)) ∧
    (g.over = false → 0 < g.lastMove → MOVE_TIMEOUT_MS < now - g.lastMove →
      checkTimeout g sb now =
        ({ g with
            over := true,
            result := some
              (some (playerAt g (if g.engine.turnColor = 'w' then 'b' else 'w')),
               some (playerAt g g.engine.turnColor), "timeout") },
         updateRatings sb
           (playerAt g (if g.engine.turnColor = 'w' then 'b' else 'w'))
           (playerAt g g.engine.turnColor),
         true)) ∧
    (∀ g2 sb2 now2 sb3, checkTimeout g sb now = (g2, sb2, true) →
      checkTimeout g2 sb3 now2 = (g2, sb3, false)) := by
  refine ⟨?_, ?_, ?_, ?_⟩
  · intro h
    simp [checkTimeout, h]
  · intro h
    by_cases hov : g.over = true
    · simp [checkTimeout, hov]
    · have hc : ¬ (g.lastMove ≠ 0 ∧ MOVE_TIMEOUT_MS < now - g.lastMove) := by
        rintro ⟨-, hlt⟩
        omega
      simp only [checkTimeout, Bool.not_eq_true] at hov ⊢
      rw [hov]
      simp [hc]
  · intro hov h0 hlt
    have hc : g.lastMove ≠ 0 ∧ MOVE_TIMEOUT_MS < now - g.lastMove := ⟨by omega, hlt⟩
    simp [checkTimeout, hov, hc]
  · intro g2 sb2 now2 sb3 heq
    by_cases hov : g.over = true
    · simp [checkTimeout, hov] at heq
    · simp only [Bool.not_eq_true] at hov
      by_cases hc : g.lastMove ≠ 0 ∧ MOVE_TIMEOUT_MS < now - g.lastMove
      · unfold checkTimeout at heq
        rw [hov] at heq
        rw [if_neg (by simp), if_pos hc] at heq
        have hg2 : g2.over = true := by
          have hcomp := congrArg (fun p => p.1.over) heq
          simpa using hcomp
        simp [checkTimeout, hg2]
      · simp [checkTimeout, hov, hc] at heq

theorem checkTimeout_spec_witness :
    (checkTimeout
      { playersW := "w1", playersB := "b1", engine := initialState,
        over := false, result := none, lastMove := 100 } [] 400100).2.2 = true := by
  rw [(checkTimeout_spec _ _ _).2.2.1 rfl (by decide) (by decide)]

/-! ## C10: square-addressed operations on arbitrary strings -/

/-- C10 counterexample: `"ax"` has length 2 but is not a well-formed square,
yet `_squareToCoords` does not return null — the NaN rank passes the range
check — and the square-addressed queries throw instead of returning
empty results. -/
theorem squareQuery_not_total :
    ¬ (squareToCoords ['a', 'x'] = none) ∧
    movesQ initialState (some ['a', 'x']) = .error () ∧
    getSquare initialState ['a', 'x'] = .error () := by
  refine ⟨by decide, rfl, rfl⟩

/-- C10 (amended): for every non-empty input that `_squareToCoords` rejects
(length ≠ 2, file outside a–h, or a digit rank outside 1–8) the
square-addressed queries are total — `moves` yields `[]` and `get` yields
null.  A supplied empty-string square is falsy (`opts.square || null`), so
`moves(\x7bsquare\x7d)` falls through to the whole-side query and returns
every legal move of the side to move, while `get` still yields null.  But a
length-2 input whose second character is not a digit slips through the
range check with a NaN rank (file in range), and then `moves(\x7bsquare\x7d)`
and `get(square)` throw a `TypeError` instead. -/
theorem squareQuery_amended (s : List Char) (st : GameState) :
    (squareToCoords s = none → s ≠ [] →
      movesQ st (some s) = .ok [] ∧ getSquare st s = .ok none) ∧
    (movesQ st (some []) = .ok (movesAll st) ∧ getSquare st [] = .ok none) ∧
    (∀ f, squareToCoords s = some (none, f) →
      movesQ st (some s) = .error () ∧ getSquare st s = .error ()) ∧
    (∀ c0 c1, s = [c0, c1] → ¬ ('0' ≤ c1 ∧ c1 ≤ '9') →
      0 ≤ (c0.toNat : Int) - 97 → (c0.toNat : Int) - 97 ≤ 7 →
      squareToCoords s = some (none, (c0.toNat : Int) - 97)) := by
  refine ⟨?_, ⟨rfl, rfl⟩, ?_, ?_⟩
  · intro h hne
    exact ⟨by simp [movesQ, h, hne], by simp [getSquare, h]⟩
  · intro f h
    have hne : s ≠ [] := by
      intro he
      rw [he] at h
      simp [squareToCoords] at h
    exact ⟨by simp [movesQ, h, hne], by simp [getSquare, h]⟩
  · intro c0 c1 hs hdig h0 h7
    subst hs
    simp only [squareToCoords, parseIntChar, if_neg hdig, Option.map_none']
    rw [if_neg]
    rintro (h | h | h)
    · omega
    · omega
    · simp at h

theorem squareQuery_amended_witness :
    movesQ initialState (some ['a', '9']) = .ok [] ∧
    getSquare initialState ['a', '9'] = .ok none :=
  (squareQuery_amended ['a', '9'] initialState).1 (by decide) (by decide)

/-! ## C7: lenient position loading -/

/-- C7: `load` fails (returns the failure flag with the engine untouched)
exactly when the placement part does not split into 8 ranks; with 8 ranks it
always succeeds, each short rank being padded with empty squares and any
characters after the 8th file of a rank being ignored. -/
theorem load_spec (st : GameState) (fenStr : List Char) :
    ((splitOnC '/' ((nth (splitWsT (trimChars fenStr)) 0).getD [])).length ≠ 8 →
      load st fenStr = (st, false)) ∧
    ((splitOnC '/' ((nth (splitWsT (trimChars fenStr)) 0).getD [])).length = 8 →
      (load st fenStr).2 = true ∧
      (load st fenStr).1.board =
        (splitOnC '/' ((nth (splitWsT (trimChars fenStr)) 0).getD [])).map parseRow) ∧
    (∀ chars, 8 ≤ (parseRow chars).length) ∧
    (∀ cs row, 7 < row.length → parseCells cs row = row) := by
  refine ⟨?_, ?_, ?_, ?_⟩
  · intro h
    simp [load, h]
  · intro h
    exact ⟨by simp [load, h], by simp [load, h]⟩
  · intro chars
    have : (parseRow chars).length =
        (parseCells chars []).length + (8 - (parseCells chars []).length) := by
      simp [parseRow]
    omega
  · intro cs row h
    cases cs with
    | nil => rfl
    | cons ch rest => simp [parseCells, h]

theorem load_spec_witness :
    load initialState ['x'] = (initialState, false) :=
  (load_spec initialState ['x']).1 (by decide)

/-! ## Board update lemmas -/

theorem length_setCell (b : Board) (r c : Nat) (v : Cell) :
    (setCell b r c v).length = b.length := by
  simp [setCell, length_setN]

theorem rowAt_setCell_same (b : Board) (r c : Nat) (v : Cell) (h : r < b.length) :
    rowAt (setCell b r c v) r = setN (rowAt b r) c v := by
  simp [setCell, rowAt, nth_setN_self _ _ _ h]

theorem rowAt_setCell_ne (b : Board) (r c : Nat) (v : Cell) (r' : Nat) (h : r ≠ r') :
    rowAt (setCell b r c v) r' = rowAt b r' := by
  simp [setCell, rowAt, nth_setN_ne _ _ _ _ h]

theorem setCell_oob (b : Board) (r c : Nat) (v : Cell) (h : b.length ≤ r) :
    setCell b r c v = b := by
  simp [setCell, setN_oob _ _ _ h]

theorem cellAt_setCell_same (b : Board) (r c : Nat) (v : Cell)
    (hr : r < b.length) (hc : c < (rowAt b r).length) :
    cellAt (setCell b r c v) r c = v := by
  simp [cellAt, rowAt_setCell_same _ _ _ _ hr, nth_setN_self _ _ _ hc]

theorem cellAt_setCell_ne (b : Board) (r c : Nat) (v : Cell) (r' c' : Nat)
    (h : r ≠ r' ∨ c ≠ c') : cellAt (setCell b r c v) r' c' = cellAt b r' c' := by
  rcases h with h | h
  · simp [cellAt, rowAt_setCell_ne _ _ _ _ _ h]
  · by_cases hr : r = r'
    · subst hr
      by_cases hrl : r < b.length
      · simp [cellAt, rowAt_setCell_same _ _ _ _ hrl, nth_setN_ne _ _ _ _ h]
      · rw [setCell_oob _ _ _ _ (Nat.le_of_not_lt hrl)]
    · simp [cellAt, rowAt_setCell_ne _ _ _ _ _ hr]

theorem nth_none_oob {α : Type _} {l : List α} {n : Nat} (h : nth l n = none) :
    l.length ≤ n := by
  induction l generalizing n with
  | nil => exact Nat.zero_le n
  | cons x xs ih =>
    cases n with
    | zero => exact Option.noConfusion h
    | succ m => simpa using ih (n := m) h

theorem rowAt_setN_same (b : Board) (r : Nat) (row : List Cell) (h : r < b.length) :
    rowAt (setN b r row) r = row := by
  simp [rowAt, nth_setN_self _ _ _ h]

theorem rowAt_setN_ne (b : Board) (r r' : Nat) (row : List Cell) (h : r ≠ r') :
    rowAt (setN b r row) r' = rowAt b r' := by
  simp [rowAt, nth_setN_ne _ _ _ _ h]

theorem setCell_setCell_same (b : Board) (r c : Nat) (v v' : Cell) :
    setCell (setCell b r c v) r c v' = setCell b r c v' := by
  simp only [setCell]
  by_cases hr : r < b.length
  · rw [rowAt_setN_same _ _ _ hr, setN_setN_self, setN_setN_self]
  · rw [setN_oob b r _ (Nat.le_of_not_lt hr)]

theorem setCell_comm (b : Board) (r c r' c' : Nat) (v v' : Cell)
    (h : r ≠ r' ∨ c ≠ c') :
    setCell (setCell b r c v) r' c' v' = setCell (setCell b r' c' v') r c v := by
  simp only [setCell]
  by_cases hr : r = r'
  · subst hr
    have hcc : c ≠ c' := by
      rcases h with h | h
      · exact absurd rfl h
      · exact h
    by_cases hrl : r < b.length
    · rw [rowAt_setN_same _ _ _ hrl, rowAt_setN_same _ _ _ hrl,
        setN_setN_self, setN_setN_self, setN_comm _ _ _ _ _ hcc]
    · have hoob := Nat.le_of_not_lt hrl
      simp only [show ∀ x : List Cell, setN b r x = b from fun x => setN_oob b r x hoob]
  · rw [rowAt_setN_ne _ _ _ _ hr, rowAt_setN_ne _ _ _ _ (Ne.symm hr),
      setN_comm _ _ _ _ _ hr]

theorem setCell_cellAt_self (b : Board) (r c : Nat) :
    setCell b r c (cellAt b r c) = b := by
  simp only [setCell, cellAt]
  cases hb : nth b r with
  | none =>
    have hrow : rowAt b r = [] := by simp [rowAt, hb]
    rw [hrow]
    exact setN_oob _ _ _ (nth_none_oob hb)
  | some row =>
    have hrow : rowAt b r = row := by simp [rowAt, hb]
    rw [hrow]
    cases hn : nth row c with
    | none =>
      rw [setN_oob _ _ _ (nth_none_oob hn)]
      exact setN_nth_self _ _ _ hb
    | some x =>
      simp only [Option.getD_some]
      rw [setN_nth_self _ _ _ hn]
      exact setN_nth_self _ _ _ hb

/-! ## Structural facts about generated moves -/

theorem inBoundsB_eq_true {r c : Int} :
    inBoundsB r c = true ↔ 0 ≤ r ∧ r < 8 ∧ 0 ≤ c ∧ c < 8 := by
  simp [inBoundsB, and_assoc]

theorem mem_mkSimple {b : Board} {isWhite : Bool} {fromSq : List Char}
    {pieceL : Char} {rr cc : Int} {mv : Move}
    (h : mv ∈ mkSimple b isWhite fromSq pieceL rr cc) :
    mv.fromSq = fromSq ∧ mv.piece = pieceL ∧ mv.promotion = none ∧
    inBoundsB rr cc = true ∧ mv.toSq = coordsToSquare rr.toNat cc.toNat := by
  unfold mkSimple at h
  by_cases hb : inBoundsB rr cc
  · rw [if_pos hb] at h
    cases hcell : cellAtI b rr cc with
    | some target =>
      rw [hcell] at h
      dsimp only [] at h
      by_cases ht : (decide (target = jsToUpper target)) = isWhite
      · rw [if_pos ht] at h
        exact absurd h (List.not_mem_nil mv)
      · rw [if_neg ht] at h
        rw [List.mem_singleton] at h
        subst h
        exact ⟨rfl, rfl, rfl, hb, rfl⟩
    | none =>
      rw [hcell] at h
      dsimp only [] at h
      rw [List.mem_singleton] at h
      subst h
      exact ⟨rfl, rfl, rfl, hb, rfl⟩
  · rw [if_neg hb] at h
    exact absurd h (List.not_mem_nil mv)

theorem mem_ray {b : Board} {isWhite : Bool} {fromSq : List Char} {pieceL : Char}
    {dr dc : Int} {r c : Nat} {mv : Move} :
    ∀ {fuel : Nat} {rr cc : Int},
    mv ∈ ray b isWhite fromSq pieceL dr dc fuel rr cc →
    ((0 < dr → (r : Int) < rr) ∧ (dr < 0 → rr < (r : Int)) ∧
      (dr = 0 → ((0 < dc → (c : Int) < cc) ∧ (dc < 0 → cc < (c : Int)) ∧ dc ≠ 0))) →
    mv.fromSq = fromSq ∧ mv.piece = pieceL ∧ mv.promotion = none ∧
    ∃ rr' cc' : Int, inBoundsB rr' cc' = true ∧
      ¬(rr' = (r : Int) ∧ cc' = (c : Int)) ∧
      mv.toSq = coordsToSquare rr'.toNat cc'.toNat := by
  intro fuel
  induction fuel with
  | zero =>
    intro rr cc h _
    exact absurd h (List.not_mem_nil mv)
  | succ n ih =>
    intro rr cc h hinv
    unfold ray at h
    by_cases hb : inBoundsB rr cc
    · rw [if_pos hb] at h
      cases hcell : cellAtI b rr cc with
      | some target =>
        rw [hcell] at h
        dsimp only [] at h
        by_cases ht : (decide (target = jsToUpper target)) = isWhite
        · rw [if_pos ht] at h
          exact absurd h (List.not_mem_nil mv)
        · rw [if_neg ht] at h
          rw [List.mem_singleton] at h
          subst h
          refine ⟨rfl, rfl, rfl, rr, cc, hb, ?_, rfl⟩
          rintro ⟨h1, h2⟩
          omega
      | none =>
        rw [hcell] at h
        dsimp only [] at h
        rcases List.mem_cons.mp h with h1 | h1
        · subst h1
          refine ⟨rfl, rfl, rfl, rr, cc, hb, ?_, rfl⟩
          rintro ⟨h1, h2⟩
          omega
        · refine ih h1 ⟨?_, ?_, ?_⟩
          · intro hd
            have := hinv
            omega
          · intro hd
            have := hinv
            omega
          · intro hd
            refine ⟨?_, ?_, ?_⟩
            · intro hdc
              have := hinv
              omega
            · intro hdc
              have := hinv
              omega
            · have := hinv
              omega
    · rw [if_neg hb] at h
      exact absurd h (List.not_mem_nil mv)

theorem mem_pawnMoves {b : Board} {isWhite : Bool} {fromSq : List Char}
    {pieceL : Char} {r c : Nat} {mv : Move} (hr : r < 8) (hc : c < 8)
    (h : mv ∈ pawnMoves b isWhite fromSq pieceL (r : Int) (c : Int)) :
    mv.fromSq = fromSq ∧ mv.piece = pieceL ∧
    ∃ rr' cc' : Int, inBoundsB rr' cc' = true ∧
      ¬(rr' = (r : Int) ∧ cc' = (c : Int)) ∧
      mv.toSq = coordsToSquare rr'.toNat cc'.toNat ∧
      ((mv.promotion = some 'q' ∧ (rr' = 0 ∨ rr' = 7)) ∨
       (mv.promotion = none ∧ ¬(rr' = 0 ∨ rr' = 7))) := by
  have hds : ∀ dd ss : Int, (if isWhite then (-1 : Int) else 1) = dd →
      (if isWhite then (6 : Int) else 1) = ss →
      ((dd = -1 ∧ ss = 6) ∨ (dd = 1 ∧ ss = 1)) := by
    cases isWhite <;> intro dd ss h1 h2 <;> simp at h1 h2 <;> subst h1 <;> subst h2 <;> simp
  simp only [pawnMoves] at h
  generalize hdg : (if isWhite then (-1 : Int) else 1) = d at h
  generalize hsg : (if isWhite then (6 : Int) else 1) = s at h
  have hds' := hds d s hdg hsg
  rcases List.mem_append.mp h with h | h
  · by_cases hg : inBoundsB ((r : Int) + d) (c : Int) = true ∧
        cellAtI b ((r : Int) + d) (c : Int) = none
    · rw [if_pos hg] at h
      rcases List.mem_append.mp h with h | h
      · by_cases hpr : ((r : Int) + d = 0 ∨ (r : Int) + d = 7)
        · rw [if_pos hpr] at h
          rw [List.mem_singleton] at h
          subst h
          refine ⟨rfl, rfl, (r : Int) + d, (c : Int), hg.1, ?_, rfl, Or.inl ⟨rfl, hpr⟩⟩
          rintro ⟨h1, h2⟩
          omega
        · rw [if_neg hpr] at h
          rw [List.mem_singleton] at h
          subst h
          refine ⟨rfl, rfl, (r : Int) + d, (c : Int), hg.1, ?_, rfl, Or.inr ⟨rfl, hpr⟩⟩
          rintro ⟨h1, h2⟩
          omega
      · by_cases hdb : ((r : Int) = s ∧ cellAtI b ((r : Int) + 2 * d) (c : Int) = none)
        · rw [if_pos hdb] at h
          rw [List.mem_singleton] at h
          subst h
          have hrs := hdb.1
          refine ⟨rfl, rfl, (r : Int) + 2 * d, (c : Int),
            inBoundsB_eq_true.mpr (by omega), ?_, rfl, Or.inr ⟨rfl, by omega⟩⟩
          rintro ⟨h1, h2⟩
          omega
        · rw [if_neg hdb] at h
          exact absurd h (List.not_mem_nil mv)
    · rw [if_neg hg] at h
      exact absurd h (List.not_mem_nil mv)
  · rw [List.mem_flatMap] at h
    obtain ⟨dcap, hdcap, h⟩ := h
    have hdc : dcap = -1 ∨ dcap = 1 := by
      rcases List.mem_cons.mp hdcap with h1 | h1
      · exact Or.inl h1
      · exact Or.inr (by simpa using h1)
    by_cases hcb : inBoundsB ((r : Int) + d) ((c : Int) + dcap) = true
    · rw [if_pos hcb] at h
      cases hcell : cellAtI b ((r : Int) + d) ((c : Int) + dcap) with
      | some target =>
        rw [hcell] at h
        dsimp only [] at h
        by_cases ht : (decide (target = jsToUpper target)) = isWhite
        · rw [if_pos ht] at h
          exact absurd h (List.not_mem_nil mv)
        · rw [if_neg ht] at h
          by_cases hpr : ((r : Int) + d = 0 ∨ (r : Int) + d = 7)
          · rw [if_pos hpr] at h
            rw [List.mem_singleton] at h
            subst h
            refine ⟨rfl, rfl, (r : Int) + d, (c : Int) + dcap, hcb, ?_, rfl,
              Or.inl ⟨rfl, hpr⟩⟩
            rintro ⟨h1, h2⟩
            omega
          · rw [if_neg hpr] at h
            rw [List.mem_singleton] at h
            subst h
            refine ⟨rfl, rfl, (r : Int) + d, (c : Int) + dcap, hcb, ?_, rfl,
              Or.inr ⟨rfl, hpr⟩⟩
            rintro ⟨h1, h2⟩
            omega
      | none =>
        rw [hcell] at h
        dsimp only [] at h
        exact absurd h (List.not_mem_nil mv)
    · rw [if_neg hcb] at h
      exact absurd h (List.not_mem_nil mv)

theorem mem_slideBranch {b : Board} {isWhite : Bool} {fromSq : List Char}
    {pieceL : Char} {dirs : List (Int × Int)} {r c : Nat} {mv : Move}
    (hdirs : ∀ x ∈ dirs, ¬(x.1 = 0 ∧ x.2 = 0))
    (h : mv ∈ dirs.flatMap fun dd =>
      ray b isWhite fromSq pieceL dd.1 dd.2 8 ((r : Int) + dd.1) ((c : Int) + dd.2)) :
    mv.fromSq = fromSq ∧ mv.piece = pieceL ∧ mv.promotion = none ∧
    ∃ rr' cc' : Int, inBoundsB rr' cc' = true ∧
      ¬(rr' = (r : Int) ∧ cc' = (c : Int)) ∧
      mv.toSq = coordsToSquare rr'.toNat cc'.toNat := by
  rw [List.mem_flatMap] at h
  obtain ⟨dd, hdd, h⟩ := h
  have hnz := hdirs dd hdd
  exact mem_ray h ⟨fun h1 => by omega, fun h1 => by omega,
    fun h0 => ⟨fun h1 => by omega, fun h1 => by omega, by omega⟩⟩

theorem mem_leaperBranch {b : Board} {isWhite : Bool} {fromSq : List Char}
    {pieceL : Char} {dirs : List (Int × Int)} {r c : Nat} {mv : Move}
    (hdirs : ∀ x ∈ dirs, ¬(x.1 = 0 ∧ x.2 = 0))
    (h : mv ∈ dirs.flatMap fun dd =>
      mkSimple b isWhite fromSq pieceL ((r : Int) + dd.1) ((c : Int) + dd.2)) :
    mv.fromSq = fromSq ∧ mv.piece = pieceL ∧ mv.promotion = none ∧
    ∃ rr' cc' : Int, inBoundsB rr' cc' = true ∧
      ¬(rr' = (r : Int) ∧ cc' = (c : Int)) ∧
      mv.toSq = coordsToSquare rr'.toNat cc'.toNat := by
  rw [List.mem_flatMap] at h
  obtain ⟨dd, hdd, h⟩ := h
  have hnz := hdirs dd hdd
  obtain ⟨h1, h2, h3, hb, hto⟩ := mem_mkSimple h
  refine ⟨h1, h2, h3, (r : Int) + dd.1, (c : Int) + dd.2, hb, ?_, hto⟩
  rintro ⟨e1, e2⟩
  omega

/-- Every move `_generatePieceMoves(r, c)` produces originates at `(r, c)`
(as a square string), targets a distinct in-bounds square, carries the piece
letter at `(r, c)`, is generated only when that piece's colour is the forced
turn colour, and is marked as a promotion exactly when the piece is a pawn
reaching rank 0 or 7 — in which case the promotion is always `'q'`. -/
theorem mem_generatePieceMoves {b : Board} {t : Char} {r c : Nat} {mv : Move}
    (hr : r < 8) (hc : c < 8) (h : mv ∈ generatePieceMoves b t r c) :
    ∃ piece, cellAt b r c = some piece ∧
      (t = 'w' ∨ t = 'b') ∧
      t = (if decide (piece = jsToUpper piece) then 'w' else 'b') ∧
      mv.fromSq = coordsToSquare r c ∧ mv.piece = jsToLower piece ∧
      ∃ rr' cc' : Int, inBoundsB rr' cc' = true ∧
        ¬(rr' = (r : Int) ∧ cc' = (c : Int)) ∧
        mv.toSq = coordsToSquare rr'.toNat cc'.toNat ∧
        ((mv.promotion = some 'q' ∧ jsToLower piece = 'p' ∧ (rr' = 0 ∨ rr' = 7)) ∨
         (mv.promotion = none ∧ ¬(jsToLower piece = 'p' ∧ (rr' = 0 ∨ rr' = 7)))) := by
  unfold generatePieceMoves at h
  cases hcell : cellAt b r c with
  | none =>
    rw [hcell] at h
    exact absurd h (List.not_mem_nil mv)
  | some piece =>
    rw [hcell] at h
    dsimp only [] at h
    by_cases hcol : (if decide (piece = jsToUpper piece) then 'w' else 'b') ≠ t
    · rw [if_pos hcol] at h
      exact absurd h (List.not_mem_nil mv)
    · rw [if_neg hcol] at h
      have htcol : t = if decide (piece = jsToUpper piece) then 'w' else 'b' :=
        (not_not.mp hcol).symm
      have htwb : t = 'w' ∨ t = 'b' := by
        cases hD : decide (piece = jsToUpper piece) <;> rw [hD] at htcol <;> simp at htcol
        · exact Or.inr htcol
        · exact Or.inl htcol
      by_cases hp : jsToLower piece = 'p'
      · rw [if_pos hp] at h
        obtain ⟨h1, h2, rr', cc', hb, hne, hto, hprom⟩ := mem_pawnMoves hr hc h
        refine ⟨piece, rfl, htwb, htcol, h1, h2, rr', cc', hb, hne, hto, ?_⟩
        rcases hprom with ⟨hq, hrank⟩ | ⟨hn, hrank⟩
        · exact Or.inl ⟨hq, hp, hrank⟩
        · exact Or.inr ⟨hn, fun hcontr => hrank hcontr.2⟩
      · rw [if_neg hp] at h
        by_cases hkn : jsToLower piece = 'n'
        · rw [if_pos hkn] at h
          obtain ⟨h1, h2, h3, rr', cc', hb, hne, hto⟩ :=
            mem_leaperBranch (by decide) h
          exact ⟨piece, rfl, htwb, htcol, h1, h2, rr', cc', hb, hne, hto,
            Or.inr ⟨h3, fun hcontr => hp hcontr.1⟩⟩
        · rw [if_neg hkn] at h
          by_cases hbi : jsToLower piece = 'b'
          · rw [if_pos hbi] at h
            obtain ⟨h1, h2, h3, rr', cc', hb, hne, hto⟩ :=
              mem_slideBranch (by decide) h
            exact ⟨piece, rfl, htwb, htcol, h1, h2, rr', cc', hb, hne, hto,
              Or.inr ⟨h3, fun hcontr => hp hcontr.1⟩⟩
          · rw [if_neg hbi] at h
            by_cases hro : jsToLower piece = 'r'
            · rw [if_pos hro] at h
              obtain ⟨h1, h2, h3, rr', cc', hb, hne, hto⟩ :=
                mem_slideBranch (by decide) h
              exact ⟨piece, rfl, htwb, htcol, h1, h2, rr', cc', hb, hne, hto,
                Or.inr ⟨h3, fun hcontr => hp hcontr.1⟩⟩
            · rw [if_neg hro] at h
              by_cases hqu : jsToLower piece = 'q'
              · rw [if_pos hqu] at h
                obtain ⟨h1, h2, h3, rr', cc', hb, hne, hto⟩ :=
                  mem_slideBranch (by decide) h
                exact ⟨piece, rfl, htwb, htcol, h1, h2, rr', cc', hb, hne, hto,
                  Or.inr ⟨h3, fun hcontr => hp hcontr.1⟩⟩
              · rw [if_neg hqu] at h
                by_cases hki : jsToLower piece = 'k'
                · rw [if_pos hki] at h
                  obtain ⟨h1, h2, h3, rr', cc', hb, hne, hto⟩ :=
                    mem_leaperBranch (by decide) h
                  exact ⟨piece, rfl, htwb, htcol, h1, h2, rr', cc', hb, hne, hto,
                    Or.inr ⟨h3, fun hcontr => hp hcontr.1⟩⟩
                · rw [if_neg hki] at h
                  exact absurd h (List.not_mem_nil mv)

theorem mem_movesAllPseudo {st : GameState} {mv : Move} (h : mv ∈ movesAllPseudo st) :
    ∃ r c, r < 8 ∧ c < 8 ∧ mv ∈ generatePieceMoves st.board st.turnColor r c := by
  unfold movesAllPseudo at h
  rw [List.mem_flatMap] at h
  obtain ⟨rc, hrc, h⟩ := h
  have hb := mem_squaresRM.mp hrc
  refine ⟨rc.1, rc.2, hb.1, hb.2, ?_⟩
  cases hcell : cellAt st.board rc.1 rc.2 with
  | none =>
    rw [hcell] at h
    exact absurd h (List.not_mem_nil mv)
  | some piece =>
    rw [hcell] at h
    dsimp only [] at h
    by_cases hcol : (if decide (piece = jsToUpper piece) then 'w' else 'b') ≠ st.turnColor
    · rw [if_pos hcol] at h
      exact absurd h (List.not_mem_nil mv)
    · rw [if_neg hcol] at h
      exact h

theorem mem_legalFilter {st : GameState} {pseudo : List Move} {mv : Move} :
    mv ∈ legalFilter st pseudo ↔ mv ∈ pseudo ∧
      isInCheck (makeMove st mv).board
        (if (makeMove st mv).turnColor = 'w' then 'b' else 'w') = false := by
  unfold legalFilter
  rw [List.mem_filter]
  simp

theorem squareToCoords_bounds {s : List Char} {rk f : Int}
    (h : squareToCoords s = some (some rk, f)) :
    0 ≤ rk ∧ rk < 8 ∧ 0 ≤ f ∧ f < 8 := by
  match s with
  | [] => simp [squareToCoords] at h
  | [c0] => simp [squareToCoords] at h
  | c0 :: c1 :: c2 :: rest => simp [squareToCoords] at h
  | [c0, c1] =>
    simp only [squareToCoords] at h
    cases hpc : (parseIntChar c1).map (fun d => (8 : Int) - d) with
    | none =>
      rw [hpc] at h
      dsimp only [] at h
      split at h
      · exact Option.noConfusion h
      · rw [Option.some.injEq, Prod.mk.injEq] at h
        exact absurd h.1 (by simp)
    | some rk0 =>
      rw [hpc] at h
      dsimp only [] at h
      split at h
      · exact Option.noConfusion h
      · rename_i hcond
        rw [Option.some.injEq, Prod.mk.injEq] at h
        obtain ⟨hrk, hf⟩ := h
        rw [Option.some.injEq] at hrk
        have h0 : ¬ ((c0.toNat : Int) - 97 < 0) := fun hx => hcond (Or.inl hx)
        have h7 : ¬ (7 < (c0.toNat : Int) - 97) := fun hx => hcond (Or.inr (Or.inl hx))
        have hb1 : ¬ rk0 < 0 := fun hx => hcond (Or.inr (Or.inr (by simp [hx])))
        have hb2 : ¬ 7 < rk0 := fun hx => hcond (Or.inr (Or.inr (by simp [hx])))
        subst hrk
        subst hf
        exact ⟨by omega, by omega, by omega, by omega⟩

theorem makeMove_resolved {st : GameState} {mv : Move} {r1 c1 r2 c2 : Nat}
    (hf : sqCoordsN mv.fromSq = some (r1, c1))
    (ht : sqCoordsN mv.toSq = some (r2, c2)) :
    makeMove st mv =
      { board :=
          (match mv.promotion, cellAt st.board r1 c1 with
            | some promo, some p =>
              setCell (setCell (setCell st.board r2 c2 (cellAt st.board r1 c1)) r1 c1 none)
                r2 c2 (some (if p = jsToUpper p then jsToUpper promo else jsToLower promo))
            | _, _ => setCell (setCell st.board r2 c2 (cellAt st.board r1 c1)) r1 c1 none),
        turnColor := if st.turnColor = 'w' then 'b' else 'w',
        hist := { mv := mv, captured := cellAt st.board r2 c2,
                  turn := st.turnColor } :: st.hist } := by
  unfold makeMove
  rw [hf, ht]

theorem gen_move_coords {b : Board} {t : Char} {r c : Nat} {mv : Move}
    (hr : r < 8) (hc : c < 8) (h : mv ∈ generatePieceMoves b t r c) :
    (t = 'w' ∨ t = 'b') ∧
    sqCoordsN mv.fromSq = some (r, c) ∧
    ∃ r2 c2 : Nat, r2 < 8 ∧ c2 < 8 ∧ ¬(r2 = r ∧ c2 = c) ∧
      sqCoordsN mv.toSq = some (r2, c2) := by
  obtain ⟨piece, hcell, htwb, htcol, hfrom, hpieceL, rr', cc', hb, hne, hto, hprom⟩ :=
    mem_generatePieceMoves hr hc h
  have hbb := inBoundsB_eq_true.mp hb
  refine ⟨htwb, ?_, rr'.toNat, cc'.toNat, by omega, by omega, ?_, ?_⟩
  · rw [hfrom]
    exact sqCoordsN_coordsToSquare r hr c hc
  · rintro ⟨e1, e2⟩
    exact hne ⟨by omega, by omega⟩
  · rw [hto]
    exact sqCoordsN_coordsToSquare _ (by omega) _ (by omega)

/-- C1: for every reachable position, every move returned by the legal-move
query — for the whole side to move or for a single square — leaves the
mover's own king unattacked after being applied. -/
theorem legalMoves_no_self_check (st : GameState) (sqOpt : Option (List Char))
    (l : List Move) (mv : Move) (hreach : Reachable st)
    (hq : movesQ st sqOpt = .ok l) (hmv : mv ∈ l) :
    isInCheck (makeMove st mv).board st.turnColor = false := by
  have hcore : ∃ r c : Nat, r < 8 ∧ c < 8 ∧
      mv ∈ generatePieceMoves st.board st.turnColor r c ∧
      isInCheck (makeMove st mv).board
        (if (makeMove st mv).turnColor = 'w' then 'b' else 'w') = false := by
    cases sqOpt with
    | none =>
      rw [movesQ, Except.ok.injEq] at hq
      subst hq
      obtain ⟨hmem, hpred⟩ := mem_legalFilter.mp hmv
      obtain ⟨r, c, hr, hc, hg⟩ := mem_movesAllPseudo hmem
      exact ⟨r, c, hr, hc, hg, hpred⟩
    | some sq =>
      rw [movesQ] at hq
      by_cases hsq : sq = []
      · rw [if_pos hsq] at hq
        rw [Except.ok.injEq] at hq
        subst hq
        obtain ⟨hmem, hpred⟩ := mem_legalFilter.mp hmv
        obtain ⟨r, c, hr, hc, hg⟩ := mem_movesAllPseudo hmem
        exact ⟨r, c, hr, hc, hg, hpred⟩
      · rw [if_neg hsq] at hq
        cases hsc : squareToCoords sq with
        | none =>
          rw [hsc] at hq
          dsimp only [] at hq
          rw [Except.ok.injEq] at hq
          subst hq
          exact absurd hmv (List.not_mem_nil mv)
        | some p =>
          obtain ⟨rkOpt, f⟩ := p
          cases rkOpt with
          | none =>
            rw [hsc] at hq
            dsimp only [] at hq
            exact Except.noConfusion hq
          | some rk =>
            rw [hsc] at hq
            dsimp only [] at hq
            rw [Except.ok.injEq] at hq
            subst hq
            obtain ⟨hmem, hpred⟩ := mem_legalFilter.mp hmv
            have hbb := squareToCoords_bounds hsc
            exact ⟨rk.toNat, f.toNat, by omega, by omega, hmem, hpred⟩
  obtain ⟨r, c, hr, hc, hg, hpred⟩ := hcore
  obtain ⟨htwb, hfc, r2, c2, hr2, hc2, hne2, htc⟩ := gen_move_coords hr hc hg
  have hturn : (makeMove st mv).turnColor = if st.turnColor = 'w' then 'b' else 'w' := by
    rw [makeMove_resolved hfc htc]
  rw [hturn] at hpred
  rcases htwb with ht | ht <;> rw [ht] at hpred ⊢ <;> simpa using hpred

theorem legalMoves_no_self_check_witness :
    isInCheck (makeMove initialState
      { fromSq := ['e', '2'], toSq := ['e', '4'], piece := 'p' }).board
      initialState.turnColor = false :=
  legalMoves_no_self_check initialState (some ['e', '2'])
    [{ fromSq := ['e', '2'], toSq := ['e', '3'], piece := 'p' },
     { fromSq := ['e', '2'], toSq := ['e', '4'], piece := 'p' }]
    { fromSq := ['e', '2'], toSq := ['e', '4'], piece := 'p' }
    Reachable.init rfl (by decide)

theorem nth_of_lt {α : Type _} {l : List α} {n : Nat} (h : n < l.length) :
    ∃ a, nth l n = some a := by
  induction l generalizing n with
  | nil => simp at h
  | cons x xs ih =>
    cases n with
    | zero => exact ⟨x, rfl⟩
    | succ m => exact ih (by simpa using h)

theorem rowAt_length_setCell (b : Board) (r c : Nat) (v : Cell) (x : Nat) :
    (rowAt (setCell b r c v) x).length = (rowAt b x).length := by
  by_cases hx : r = x
  · subst hx
    by_cases hr : r < b.length
    · rw [rowAt_setCell_same _ _ _ _ hr, length_setN]
    · rw [setCell_oob _ _ _ _ (Nat.le_of_not_lt hr)]
  · rw [rowAt_setCell_ne _ _ _ _ _ hx]

theorem undo_resolved {st : GameState} {entry : HistEntry} {rest : List HistEntry}
    {r1 c1 r2 c2 : Nat}
    (hh : st.hist = entry :: rest)
    (hf : sqCoordsN entry.mv.fromSq = some (r1, c1))
    (ht : sqCoordsN entry.mv.toSq = some (r2, c2)) :
    undo st =
      ({ board := setCell (setCell st.board r1 c1
            (match entry.mv.promotion, cellAt st.board r2 c2 with
              | some _, some p => some (if p = jsToUpper p then 'P' else 'p')
              | some _, none => none
              | none, _ => cellAt st.board r2 c2)) r2 c2 entry.captured,
         turnColor := entry.turn, hist := rest }, some entry.mv) := by
  unfold undo
  rw [hh]
  dsimp only []
  rw [hf, ht]

/-- `undo` exactly reverses `_makeMove` — the board, the side to move and
the history all return to their prior values — for any move whose squares
parse, whose source and destination differ, and whose promotion flag (if
set) sits on an actual pawn, which is the case for every generated move. -/
theorem undo_makeMove_general {st : GameState} {mv : Move} {r c r2 c2 : Nat}
    {piece : Char}
    (hlen : st.board.length = 8)
    (hrowlen : ∀ x, x < 8 → (rowAt st.board x).length = 8)
    (hfc : sqCoordsN mv.fromSq = some (r, c))
    (htc : sqCoordsN mv.toSq = some (r2, c2))
    (hr : r < 8) (hc : c < 8) (hr2 : r2 < 8) (hc2 : c2 < 8)
    (hne : ¬(r2 = r ∧ c2 = c))
    (hcell : cellAt st.board r c = some piece)
    (hprom : mv.promotion = none ∨
      (mv.promotion = some 'q' ∧ (piece = 'p' ∨ piece = 'P'))) :
    undo (makeMove st mv) = (st, some mv) := by
  have hner : r ≠ r2 ∨ c ≠ c2 := by
    by_contra hcon
    push_neg at hcon
    exact hne ⟨hcon.1.symm, hcon.2.symm⟩
  have hner' : r2 ≠ r ∨ c2 ≠ c := by
    rcases hner with h | h
    · exact Or.inl (Ne.symm h)
    · exact Or.inr (Ne.symm h)
  have hb2len : r2 < st.board.length := by omega
  have hb2row : c2 < (rowAt st.board r2).length := by
    rw [hrowlen r2 hr2]
    exact hc2
  rw [makeMove_resolved hfc htc]
  rw [undo_resolved rfl hfc htc]
  rcases hprom with hnone | ⟨hq, hpP⟩
  · rw [hnone, hcell]
    dsimp only []
    have e1 : cellAt (setCell (setCell st.board r2 c2 (some piece)) r c none)
        r2 c2 = some piece := by
      rw [cellAt_setCell_ne _ _ _ _ _ _ hner]
      exact cellAt_setCell_same _ _ _ _ hb2len hb2row
    rw [e1]
    have hboard :
        setCell (setCell (setCell (setCell st.board r2 c2 (some piece))
          r c none) r c (some piece)) r2 c2 (cellAt st.board r2 c2) = st.board := by
      rw [setCell_setCell_same]
      rw [setCell_comm _ _ _ _ _ _ _ hner]
      rw [setCell_setCell_same]
      rw [← hcell, setCell_cellAt_self, setCell_cellAt_self]
    rw [hboard]
  · rw [hq, hcell]
    dsimp only []
    have hlen3 : r2 < (setCell (setCell st.board r2 c2 (some piece))
        r c none).length := by
      rw [length_setCell, length_setCell]
      exact hb2len
    have hrow3 : c2 < (rowAt (setCell (setCell st.board r2 c2 (some piece))
        r c none) r2).length := by
      rw [rowAt_length_setCell, rowAt_length_setCell]
      exact hb2row
    have e1 : cellAt (setCell (setCell (setCell st.board r2 c2 (some piece))
        r c none) r2 c2
          (some (if piece = jsToUpper piece then jsToUpper 'q' else jsToLower 'q')))
        r2 c2 =
        some (if piece = jsToUpper piece then jsToUpper 'q' else jsToLower 'q') :=
      cellAt_setCell_same _ _ _ _ hlen3 hrow3
    rw [e1]
    dsimp only []
    have hrestore :
        (some (if (if piece = jsToUpper piece then jsToUpper 'q' else jsToLower 'q') =
            jsToUpper (if piece = jsToUpper piece then jsToUpper 'q' else jsToLower 'q')
          then 'P' else 'p') : Cell) = some piece := by
      rcases hpP with hp | hp <;> subst hp <;> decide
    rw [hrestore]
    have hboard :
        setCell (setCell (setCell (setCell (setCell st.board r2 c2 (some piece))
          r c none) r2 c2
            (some (if piece = jsToUpper piece then jsToUpper 'q' else jsToLower 'q')))
          r c (some piece)) r2 c2 (cellAt st.board r2 c2) = st.board := by
      rw [setCell_comm (setCell st.board r2 c2 (some piece)) _ _ _ _ _ _ hner]
      rw [setCell_setCell_same]
      rw [setCell_setCell_same]
      rw [setCell_comm _ _ _ _ _ _ _ hner]
      rw [setCell_setCell_same]
      rw [← hcell, setCell_cellAt_self, setCell_cellAt_self]
    rw [hboard]

theorem wf_cellAt {b : Board} (hwf : WFBoard b) (r c : Nat) :
    validCellB (cellAt b r c) = true := by
  unfold cellAt
  cases hb : nth b r with
  | none =>
    have : rowAt b r = [] := by simp [rowAt, hb]
    rw [this]
    rfl
  | some row =>
    have hrow : rowAt b r = row := by simp [rowAt, hb]
    rw [hrow]
    cases hn : nth row c with
    | none => rfl
    | some cell =>
      simp only [Option.getD_some]
      exact (hwf.2 row (nth_mem hb)).2 cell (nth_mem hn)

theorem wf_setCell {b : Board} (hwf : WFBoard b) {r c : Nat} {v : Cell}
    (hr : r < b.length) (hv : validCellB v = true) : WFBoard (setCell b r c v) := by
  obtain ⟨hlen, hrows⟩ := hwf
  refine ⟨by rw [length_setCell]; exact hlen, ?_⟩
  intro row hrow
  unfold setCell at hrow
  rcases mem_of_mem_setN hrow with hmem | heq
  · exact hrows row hmem
  · obtain ⟨row', hrow'⟩ := nth_of_lt hr
    have hrow'' : rowAt b r = row' := by simp [rowAt, hrow']
    subst heq
    rw [hrow'']
    constructor
    · rw [length_setN]
      exact (hrows row' (nth_mem hrow')).1
    · intro cell hcell
      rcases mem_of_mem_setN hcell with hmem2 | heq2
      · exact (hrows row' (nth_mem hrow')).2 cell hmem2
      · subst heq2
        exact hv

theorem move_success {st : GameState} {req : MoveReq} {lm : Move} {st' : GameState}
    (h : move st req = (some lm, st')) :
    lm ∈ movesAll st ∧ st' = makeMove st lm := by
  unfold move at h
  cases hfind : (movesAll st).find? (fun lmx =>
      lmx.fromSq == req.fromSq && lmx.toSq == req.toSq &&
        (match req.promotion with
         | some p => lmx.promotion == some p
         | none => true)) with
  | none =>
    rw [hfind] at h
    dsimp only [] at h
    have := congrArg Prod.fst h
    simp at this
  | some lm0 =>
    rw [hfind] at h
    dsimp only [] at h
    have h1 := congrArg Prod.fst h
    have h2 := congrArg Prod.snd h
    simp only [] at h1 h2
    rw [Option.some.injEq] at h1
    subst h1
    exact ⟨List.mem_of_find?_eq_some hfind, h2.symm⟩

theorem wf_initial : WFState initialState := by
  constructor
  · constructor
    · rfl
    · decide
  · exact Or.inl rfl

theorem wf_makeMove {st : GameState} {mv : Move} {r c : Nat}
    (hwf : WFState st) (hr : r < 8) (hc : c < 8)
    (hg : mv ∈ generatePieceMoves st.board st.turnColor r c) :
    WFState (makeMove st mv) := by
  obtain ⟨hwfb, hturn⟩ := hwf
  obtain ⟨piece, hcell, htwb, htcol, hfrom, hpl, rr', cc', hb, hne, hto, hprom⟩ :=
    mem_generatePieceMoves hr hc hg
  have hbb := inBoundsB_eq_true.mp hb
  have hfc : sqCoordsN mv.fromSq = some (r, c) := by
    rw [hfrom]
    exact sqCoordsN_coordsToSquare r hr c hc
  have htc : sqCoordsN mv.toSq = some (rr'.toNat, cc'.toNat) := by
    rw [hto]
    exact sqCoordsN_coordsToSquare _ (by omega) _ (by omega)
  have hvp : validCellB (some piece) = true := by
    have hx := wf_cellAt hwfb r c
    rwa [hcell] at hx
  rw [makeMove_resolved hfc htc, hcell]
  have hwf1 : WFBoard (setCell st.board rr'.toNat cc'.toNat (some piece)) :=
    wf_setCell hwfb (by rw [hwfb.1]; omega) hvp
  have hwf2 : WFBoard (setCell (setCell st.board rr'.toNat cc'.toNat (some piece))
      r c none) :=
    wf_setCell hwf1 (by rw [length_setCell, hwfb.1]; exact hr) rfl
  constructor
  · rcases hprom with ⟨hq, hpw, -⟩ | ⟨hn, -⟩
    · rw [hq]
      dsimp only []
      refine wf_setCell hwf2 ?_ ?_
      · rw [length_setCell, length_setCell, hwfb.1]
        omega
      · by_cases hup : piece = jsToUpper piece
        · rw [if_pos hup]
          decide
        · rw [if_neg hup]
          decide
    · rw [hn]
      dsimp only []
      exact hwf2
  · dsimp only []
    rcases hturn with ht | ht <;> rw [ht] <;> simp

theorem reachable_wf {st : GameState} (h : Reachable st) : WFState st := by
  induction h with
  | init => exact wf_initial
  | step hprev hmove ih =>
    obtain ⟨hmem, hst⟩ := move_success hmove
    obtain ⟨hmem2, -⟩ := mem_legalFilter.mp hmem
    obtain ⟨r, c, hr, hc, hg⟩ := mem_movesAllPseudo hmem2
    rw [hst]
    exact wf_makeMove ih hr hc hg

theorem movesQ_ok_gen {st : GameState} {sqOpt : Option (List Char)} {l : List Move}
    {mv : Move} (hq : movesQ st sqOpt = .ok l) (hmv : mv ∈ l) :
    ∃ r c : Nat, r < 8 ∧ c < 8 ∧ mv ∈ generatePieceMoves st.board st.turnColor r c := by
  cases sqOpt with
  | none =>
    rw [movesQ, Except.ok.injEq] at hq
    subst hq
    obtain ⟨hmem, -⟩ := mem_legalFilter.mp hmv
    exact mem_movesAllPseudo hmem
  | some sq =>
    rw [movesQ] at hq
    by_cases hsq : sq = []
    · rw [if_pos hsq] at hq
      rw [Except.ok.injEq] at hq
      subst hq
      obtain ⟨hmem, -⟩ := mem_legalFilter.mp hmv
      exact mem_movesAllPseudo hmem
    · rw [if_neg hsq] at hq
      cases hsc : squareToCoords sq with
      | none =>
        rw [hsc] at hq
        dsimp only [] at hq
        rw [Except.ok.injEq] at hq
        subst hq
        exact absurd hmv (List.not_mem_nil mv)
      | some p =>
        obtain ⟨rkOpt, f⟩ := p
        cases rkOpt with
        | none =>
          rw [hsc] at hq
          dsimp only [] at hq
          exact Except.noConfusion hq
        | some rk =>
          rw [hsc] at hq
          dsimp only [] at hq
          rw [Except.ok.injEq] at hq
          subst hq
          obtain ⟨hmem, -⟩ := mem_legalFilter.mp hmv
          have hbb := squareToCoords_bounds hsc
          exact ⟨rk.toNat, f.toNat, by omega, by omega, hmem⟩

/-- C4: for every reachable position, applying any legal move with
`_makeMove` and then calling `undo` restores exactly the prior position —
board, side to move and history — and hence the identical `fen()`
serialization. -/
theorem applyMove_undo_restores (st : GameState) (sqOpt : Option (List Char))
    (l : List Move) (mv : Move) (hreach : Reachable st)
    (hq : movesQ st sqOpt = .ok l) (hmv : mv ∈ l) :
    undo (makeMove st mv) = (st, some mv) ∧
    fen (undo (makeMove st mv)).1 = fen st := by
  obtain ⟨r, c, hr, hc, hg⟩ := movesQ_ok_gen hq hmv
  obtain ⟨⟨hlen, hrows⟩, hturnwb⟩ := reachable_wf hreach
  have hrowlen : ∀ x, x < 8 → (rowAt st.board x).length = 8 := by
    intro x hx
    obtain ⟨row, hrow⟩ := nth_of_lt (l := st.board) (n := x) (by omega)
    rw [rowAt, hrow]
    exact (hrows row (nth_mem hrow)).1
  obtain ⟨piece, hcell, htwb, htcol, hfrom, hpl, rr', cc', hb, hne, hto, hprom⟩ :=
    mem_generatePieceMoves hr hc hg
  have hbb := inBoundsB_eq_true.mp hb
  have hfc : sqCoordsN mv.fromSq = some (r, c) := by
    rw [hfrom]
    exact sqCoordsN_coordsToSquare r hr c hc
  have htc : sqCoordsN mv.toSq = some (rr'.toNat, cc'.toNat) := by
    rw [hto]
    exact sqCoordsN_coordsToSquare _ (by omega) _ (by omega)
  have hne2 : ¬(rr'.toNat = r ∧ cc'.toNat = c) := by
    rintro ⟨e1, e2⟩
    exact hne ⟨by omega, by omega⟩
  have hvc : validCellB (cellAt st.board r c) = true := wf_cellAt ⟨hlen, hrows⟩ r c
  rw [hcell] at hvc
  have hpc : piece ∈ pieceChars := by
    unfold validCellB at hvc
    simpa using hvc
  have hprom2 : mv.promotion = none ∨
      (mv.promotion = some 'q' ∧ (piece = 'p' ∨ piece = 'P')) := by
    rcases hprom with ⟨hq', hp, -⟩ | ⟨hn, -⟩
    · refine Or.inr ⟨hq', ?_⟩
      have hlp : ∀ x ∈ pieceChars, jsToLower x = 'p' → x = 'p' ∨ x = 'P' := by decide
      exact hlp piece hpc hp
    · exact Or.inl hn
  have hmain := undo_makeMove_general hlen hrowlen hfc htc hr hc (by omega) (by omega)
    hne2 hcell hprom2
  exact ⟨hmain, by rw [hmain]⟩

theorem applyMove_undo_restores_witness :
    undo (makeMove initialState
      { fromSq := ['e', '2'], toSq := ['e', '4'], piece := 'p' }) =
      (initialState, some { fromSq := ['e', '2'], toSq := ['e', '4'], piece := 'p' }) :=
  (applyMove_undo_restores initialState (some ['e', '2'])
    [{ fromSq := ['e', '2'], toSq := ['e', '3'], piece := 'p' },
     { fromSq := ['e', '2'], toSq := ['e', '4'], piece := 'p' }]
    { fromSq := ['e', '2'], toSq := ['e', '4'], piece := 'p' }
    Reachable.init rfl (by decide)).1

/-! ## C2: forced-queen promotion -/

theorem movesAll_promotion {st : GameState} {mv : Move} (h : mv ∈ movesAll st) :
    mv.promotion = none ∨ mv.promotion = some 'q' := by
  obtain ⟨hmem, -⟩ := mem_legalFilter.mp h
  obtain ⟨r, c, hr, hc, hg⟩ := mem_movesAllPseudo hmem
  obtain ⟨piece, -, -, -, -, -, rr', cc', -, -, -, hprom⟩ :=
    mem_generatePieceMoves hr hc hg
  rcases hprom with ⟨hq, -⟩ | ⟨hn, -⟩
  · exact Or.inr hq
  · exact Or.inl hn

theorem movesAll_same_fromTo_promotion {st : GameState} {mv lm : Move}
    (hmv : mv ∈ movesAll st) (hlm : lm ∈ movesAll st)
    (hf : lm.fromSq = mv.fromSq) (ht : lm.toSq = mv.toSq)
    (hq : mv.promotion = some 'q') : lm.promotion = some 'q' := by
  obtain ⟨hmem1, -⟩ := mem_legalFilter.mp hmv
  obtain ⟨r, c, hr, hc, hg1⟩ := mem_movesAllPseudo hmem1
  obtain ⟨hmem2, -⟩ := mem_legalFilter.mp hlm
  obtain ⟨r', c', hr', hc', hg2⟩ := mem_movesAllPseudo hmem2
  obtain ⟨p1, hcell1, -, -, hfrom1, -, rr1, cc1, hb1, -, hto1, hprom1⟩ :=
    mem_generatePieceMoves hr hc hg1
  obtain ⟨p2, hcell2, -, -, hfrom2, -, rr2, cc2, hb2, -, hto2, hprom2⟩ :=
    mem_generatePieceMoves hr' hc' hg2
  have hfs : coordsToSquare r' c' = coordsToSquare r c := by
    rw [← hfrom1, ← hfrom2, hf]
  have hrc := coordsToSquare_inj (r', c') (mem_squaresRM.mpr ⟨hr', hc'⟩)
    (r, c) (mem_squaresRM.mpr ⟨hr, hc⟩) hfs
  rw [Prod.mk.injEq] at hrc
  obtain ⟨e1, e2⟩ := hrc
  subst e1
  subst e2
  rw [hcell1] at hcell2
  rw [Option.some.injEq] at hcell2
  subst hcell2
  rcases hprom1 with ⟨-, hp1, hrank1⟩ | ⟨hn1, -⟩
  · have hbb1 := inBoundsB_eq_true.mp hb1
    have hbb2 := inBoundsB_eq_true.mp hb2
    have hts : coordsToSquare rr2.toNat cc2.toNat = coordsToSquare rr1.toNat cc1.toNat := by
      rw [← hto1, ← hto2, ht]
    have hrc2 := coordsToSquare_inj (rr2.toNat, cc2.toNat)
      (mem_squaresRM.mpr ⟨by omega, by omega⟩) (rr1.toNat, cc1.toNat)
      (mem_squaresRM.mpr ⟨by omega, by omega⟩) hts
    rw [Prod.mk.injEq] at hrc2
    rcases hprom2 with ⟨hq2, -⟩ | ⟨-, hcon⟩
    · exact hq2
    · exact absurd ⟨hp1, by omega⟩ hcon
  · rw [hn1] at hq
    exact Option.noConfusion hq

theorem wf_rowAt_length {b : Board} (hwf : WFBoard b) {x : Nat} (hx : x < 8) :
    (rowAt b x).length = 8 := by
  obtain ⟨row, hrow⟩ := nth_of_lt (l := b) (n := x) (by rw [hwf.1]; exact hx)
  rw [rowAt, hrow]
  exact (hwf.2 row (nth_mem hrow)).1

theorem move_eq_some_facts {st : GameState} {req : MoveReq} {lm : Move}
    {st' : GameState} (h : move st req = (some lm, st')) :
    lm ∈ movesAll st ∧ st' = makeMove st lm ∧
    lm.fromSq = req.fromSq ∧ lm.toSq = req.toSq ∧
    (∀ p, req.promotion = some p → lm.promotion = some p) := by
  unfold move at h
  cases hfind : (movesAll st).find? (fun lmx =>
      lmx.fromSq == req.fromSq && lmx.toSq == req.toSq &&
        (match req.promotion with
         | some p => lmx.promotion == some p
         | none => true)) with
  | none =>
    rw [hfind] at h
    dsimp only [] at h
    have := congrArg Prod.fst h
    simp at this
  | some lm0 =>
    rw [hfind] at h
    dsimp only [] at h
    have h1 := congrArg Prod.fst h
    have h2 := congrArg Prod.snd h
    simp only [] at h1 h2
    rw [Option.some.injEq] at h1
    subst h1
    have hpred := List.find?_some hfind
    simp only [Bool.and_eq_true, beq_iff_eq] at hpred
    refine ⟨List.mem_of_find?_eq_some hfind, h2.symm, hpred.1.1, hpred.1.2, ?_⟩
    intro p hp
    have := hpred.2
    rw [hp] at this
    dsimp only [] at this
    rwa [beq_iff_eq] at this

theorem getSquare_after_promotion {st : GameState} {lm : Move}
    (hwf : WFState st) (hlm : lm ∈ movesAll st) (hq : lm.promotion = some 'q') :
    getSquare (makeMove st lm) lm.toSq = .ok (some ('q', st.turnColor)) := by
  obtain ⟨hwfb, hturnwb⟩ := hwf
  obtain ⟨hmem, -⟩ := mem_legalFilter.mp hlm
  obtain ⟨r, c, hr, hc, hg⟩ := mem_movesAllPseudo hmem
  obtain ⟨piece, hcell, htwb, htcol, hfrom, hpl, rr', cc', hb, hne, hto, hprom⟩ :=
    mem_generatePieceMoves hr hc hg
  have hbb := inBoundsB_eq_true.mp hb
  have hfc : sqCoordsN lm.fromSq = some (r, c) := by
    rw [hfrom]
    exact sqCoordsN_coordsToSquare r hr c hc
  have htc : sqCoordsN lm.toSq = some (rr'.toNat, cc'.toNat) := by
    rw [hto]
    exact sqCoordsN_coordsToSquare _ (by omega) _ (by omega)
  rw [makeMove_resolved hfc htc, hq, hcell]
  dsimp only []
  unfold getSquare
  rw [hto, squareToCoords_coordsToSquare _ (by omega) _ (by omega)]
  dsimp only []
  have htn1 : ((rr'.toNat : Int)).toNat = rr'.toNat := by omega
  have htn2 : ((cc'.toNat : Int)).toNat = cc'.toNat := by omega
  rw [htn1, htn2]
  have hcellD : cellAt (setCell (setCell (setCell st.board rr'.toNat cc'.toNat
      (some piece)) r c none) rr'.toNat cc'.toNat
        (some (if piece = jsToUpper piece then jsToUpper 'q' else jsToLower 'q')))
      rr'.toNat cc'.toNat =
      some (if piece = jsToUpper piece then jsToUpper 'q' else jsToLower 'q') := by
    refine cellAt_setCell_same _ _ _ _ ?_ ?_
    · rw [length_setCell, length_setCell, hwfb.1]
      omega
    · rw [rowAt_length_setCell, rowAt_length_setCell, wf_rowAt_length hwfb (by omega)]
      omega
  rw [hcellD]
  dsimp only []
  rw [htcol]
  by_cases hup : piece = jsToUpper piece
  · rw [if_pos hup, decide_eq_true hup]
    rfl
  · rw [if_neg hup, decide_eq_false hup]
    rfl

/-- C2 counterexample: in a legal position with the promoting pawn move
a7–a8 available, calling `move` with a caller-supplied promotion piece other
than queen (here knight) does not succeed with a queen — it is rejected
outright, returning the failure indicator. -/
theorem move_promotion_choice_rejected :
    ({ fromSq := ['a', '7'], toSq := ['a', '8'], piece := 'p',
       promotion := some 'q' } : Move)
        ∈ movesAll (load initialState ("7k/P7/8/8/8/8/8/7K w").toList).1 ∧
    (move (load initialState ("7k/P7/8/8/8/8/8/7K w").toList).1
      { fromSq := ['a', '7'], toSq := ['a', '8'], promotion := some 'n' }).1 =
        none := by
  exact ⟨by decide, by decide⟩

/-- C2 (amended): for every legal promoting pawn move, calling `move` with
its from/to and no promotion, or with promotion `'q'`, succeeds and places a
queen of the mover's colour on the destination square; calling it with any
other promotion piece finds no matching legal move and fails, leaving the
engine unchanged — the caller's non-queen choice is rejected, not replaced
by a queen. -/
theorem move_promotion_forced_queen (st : GameState) (mv : Move)
    (hwf : WFState st) (hmv : mv ∈ movesAll st) (hq : mv.promotion = some 'q') :
    ((move st { fromSq := mv.fromSq, toSq := mv.toSq }).1.isSome = true ∧
      ∀ lm st', move st { fromSq := mv.fromSq, toSq := mv.toSq } = (some lm, st') →
        lm.promotion = some 'q' ∧
        getSquare st' mv.toSq = .ok (some ('q', st.turnColor))) ∧
    ((move st { fromSq := mv.fromSq, toSq := mv.toSq, promotion := some 'q' }).1.isSome = true ∧
      ∀ lm st', move st { fromSq := mv.fromSq, toSq := mv.toSq, promotion := some 'q' } = (some lm, st') →
        getSquare st' mv.toSq = .ok (some ('q', st.turnColor))) ∧
    (∀ p, p ≠ 'q' →
      move st { fromSq := mv.fromSq, toSq := mv.toSq, promotion := some p } =
        (none, st)) := by
  refine ⟨⟨?_, ?_⟩, ⟨?_, ?_⟩, ?_⟩
  · unfold move
    cases hfind : (movesAll st).find? (fun lmx =>
        lmx.fromSq == mv.fromSq && lmx.toSq == mv.toSq && true) with
    | none =>
      exfalso
      have hnone := List.find?_eq_none.mp hfind mv hmv
      simp at hnone
    | some lm0 => rfl
  · intro lm st' hmove
    obtain ⟨hlm, hst', hf, ht, -⟩ := move_eq_some_facts hmove
    dsimp only [] at hf ht
    have hlq := movesAll_same_fromTo_promotion hmv hlm hf ht hq
    refine ⟨hlq, ?_⟩
    rw [hst', ← ht]
    exact getSquare_after_promotion hwf hlm hlq
  · unfold move
    cases hfind : (movesAll st).find? (fun lmx =>
        lmx.fromSq == mv.fromSq && lmx.toSq == mv.toSq &&
          lmx.promotion == some 'q') with
    | none =>
      exfalso
      have hnone := List.find?_eq_none.mp hfind mv hmv
      simp [hq] at hnone
    | some lm0 => rfl
  · intro lm st' hmove
    obtain ⟨hlm, hst', hf, ht, hpq⟩ := move_eq_some_facts hmove
    dsimp only [] at hf ht
    have hlq := hpq 'q' rfl
    rw [hst', ← ht]
    exact getSquare_after_promotion hwf hlm hlq
  · intro p hp
    unfold move
    cases hfind : (movesAll st).find? (fun lmx =>
        lmx.fromSq == mv.fromSq && lmx.toSq == mv.toSq &&
          lmx.promotion == some p) with
    | none => rfl
    | some lm0 =>
      exfalso
      have hpred := List.find?_some hfind
      have hlm0 := List.mem_of_find?_eq_some hfind
      simp only [Bool.and_eq_true, beq_iff_eq] at hpred
      rcases movesAll_promotion hlm0 with hn | hqq
      · rw [hn] at hpred
        exact Option.noConfusion hpred.2
      · rw [hqq] at hpred
        rw [Option.some.injEq] at hpred
        exact hp hpred.2.symm

theorem move_promotion_forced_queen_witness :
    move (load initialState ("7k/P7/8/8/8/8/8/7K w").toList).1
      { fromSq := ['a', '7'], toSq := ['a', '8'], promotion := some 'n' } =
      (none, (load initialState ("7k/P7/8/8/8/8/8/7K w").toList).1) :=
  (move_promotion_forced_queen
    (load initialState ("7k/P7/8/8/8/8/8/7K w").toList).1
    { fromSq := ['a', '7'], toSq := ['a', '8'], piece := 'p',
      promotion := some 'q' }
    (by constructor
        · constructor
          · rfl
          · decide
        · exact Or.inl rfl)
    (by decide) rfl).2.2 'n' (by decide)

/-! ## C6: closest-rating matchmaking -/

theorem findBestAux_step (player : QueueEntry) (q' : Queue) (b : QueueEntry) :
    (findBestAux player q' (some b.id)
        (some |entryRating b - entryRating player|) = some b.id ∧
      ∀ x ∈ q'.filter (fun e => e.id ≠ player.id),
        |entryRating b - entryRating player| ≤ |entryRating x - entryRating player|) ∨
    (∃ e i, findBestAux player q' (some b.id)
        (some |entryRating b - entryRating player|) = some e.id ∧
      nth (q'.filter (fun e => e.id ≠ player.id)) i = some e ∧
      |entryRating e - entryRating player| < |entryRating b - entryRating player| ∧
      (∀ x ∈ q'.filter (fun e => e.id ≠ player.id),
        |entryRating e - entryRating player| ≤ |entryRating x - entryRating player|) ∧
      (∀ j x, j < i → nth (q'.filter (fun e => e.id ≠ player.id)) j = some x →
        |entryRating e - entryRating player| < |entryRating x - entryRating player|)) := by
  induction q' generalizing b with
  | nil =>
    left
    exact ⟨rfl, by simp⟩
  | cons a rest ih =>
    by_cases ha : a.id = player.id
    · have hfa : (a :: rest).filter (fun e => e.id ≠ player.id) =
          rest.filter (fun e => e.id ≠ player.id) := by
        simp [List.filter_cons, ha]
      rw [hfa]
      unfold findBestAux
      rw [if_pos ha]
      exact ih b
    · have hfa : (a :: rest).filter (fun e => e.id ≠ player.id) =
          a :: rest.filter (fun e => e.id ≠ player.id) := by
        simp [List.filter_cons, ha]
      rw [hfa]
      unfold findBestAux
      rw [if_neg ha]
      dsimp only []
      by_cases hlt : |entryRating a - entryRating player| <
          |entryRating b - entryRating player|
      · rw [if_pos (by simpa using hlt)]
        rcases ih a with ⟨heq, hmin⟩ | ⟨e, i, heq, hnth, hless, hmin, hbefore⟩
        · right
          refine ⟨a, 0, heq, rfl, hlt, ?_, ?_⟩
          · intro x hx
            rcases List.mem_cons.mp hx with rfl | hx2
            · exact le_refl _
            · exact hmin x hx2
          · intro j x hj hx
            omega
        · right
          refine ⟨e, i + 1, heq, hnth, lt_trans hless hlt, ?_, ?_⟩
          · intro x hx
            rcases List.mem_cons.mp hx with rfl | hx2
            · exact le_of_lt hless
            · exact hmin x hx2
          · intro j x hj hx
            cases j with
            | zero =>
              rw [show nth (a :: rest.filter (fun e => e.id ≠ player.id)) 0 =
                some a from rfl, Option.some.injEq] at hx
              subst hx
              exact hless
            | succ j' => exact hbefore j' x (by omega) hx
      · rw [if_neg (by simpa using hlt)]
        push_neg at hlt
        rcases ih b with ⟨heq, hmin⟩ | ⟨e, i, heq, hnth, hless, hmin, hbefore⟩
        · left
          refine ⟨heq, ?_⟩
          intro x hx
          rcases List.mem_cons.mp hx with rfl | hx2
          · exact hlt
          · exact hmin x hx2
        · right
          refine ⟨e, i + 1, heq, hnth, hless, ?_, ?_⟩
          · intro x hx
            rcases List.mem_cons.mp hx with rfl | hx2
            · exact le_trans (le_of_lt hless) hlt
            · exact hmin x hx2
          · intro j x hj hx
            cases j with
            | zero =>
              rw [show nth (a :: rest.filter (fun e => e.id ≠ player.id)) 0 =
                some a from rfl, Option.some.injEq] at hx
              subst hx
              exact lt_of_lt_of_le hless hlt
            | succ j' => exact hbefore j' x (by omega) hx

theorem findBestAux_none (player : QueueEntry) (q' : Queue) :
    (findBestAux player q' none none = none ∧
      q'.filter (fun e => e.id ≠ player.id) = []) ∨
    (∃ e i, findBestAux player q' none none = some e.id ∧
      nth (q'.filter (fun e => e.id ≠ player.id)) i = some e ∧
      (∀ x ∈ q'.filter (fun e => e.id ≠ player.id),
        |entryRating e - entryRating player| ≤ |entryRating x - entryRating player|) ∧
      (∀ j x, j < i → nth (q'.filter (fun e => e.id ≠ player.id)) j = some x →
        |entryRating e - entryRating player| < |entryRating x - entryRating player|)) := by
  induction q' with
  | nil => exact Or.inl ⟨rfl, rfl⟩
  | cons a rest ih =>
    by_cases ha : a.id = player.id
    · have hfa : (a :: rest).filter (fun e => e.id ≠ player.id) =
          rest.filter (fun e => e.id ≠ player.id) := by
        simp [List.filter_cons, ha]
      rw [hfa]
      unfold findBestAux
      rw [if_pos ha]
      exact ih
    · have hfa : (a :: rest).filter (fun e => e.id ≠ player.id) =
          a :: rest.filter (fun e => e.id ≠ player.id) := by
        simp [List.filter_cons, ha]
      rw [hfa]
      unfold findBestAux
      rw [if_neg ha]
      dsimp only []
      rcases findBestAux_step player rest a with ⟨heq, hmin⟩ |
        ⟨e, i, heq, hnth, hless, hmin, hbefore⟩
      · right
        refine ⟨a, 0, heq, rfl, ?_, ?_⟩
        · intro x hx
          rcases List.mem_cons.mp hx with rfl | hx2
          · exact le_refl _
          · exact hmin x hx2
        · intro j x hj hx
          omega
      · right
        refine ⟨e, i + 1, heq, hnth, ?_, ?_⟩
        · intro x hx
          rcases List.mem_cons.mp hx with rfl | hx2
          · exact le_of_lt hless
          · exact hmin x hx2
        · intro j x hj hx
          cases j with
          | zero =>
            rw [show nth (a :: rest.filter (fun e => e.id ≠ player.id)) 0 =
              some a from rfl, Option.some.injEq] at hx
            subst hx
            exact hless
          | succ j' => exact hbefore j' x (by omega) hx

theorem queueGet_nodup {q : Queue} {e : QueueEntry}
    (hnodup : (q.map (fun x => x.id)).Nodup) (he : e ∈ q) :
    queueGet q e.id = some e := by
  induction q with
  | nil => simp at he
  | cons a rest ih =>
    rcases List.mem_cons.mp he with rfl | hmem
    · unfold queueGet
      rw [List.find?_cons_of_pos _ (by simp)]
    · have hne : (a.id == e.id) = false := by
        apply beq_false_of_ne
        intro hcontra
        have hmap : e.id ∈ rest.map (fun x => x.id) :=
          List.mem_map_of_mem _ hmem
        rw [← hcontra] at hmap
        exact (List.nodup_cons.mp hnodup).1 hmap
      unfold queueGet
      rw [List.find?_cons_of_neg _ (by simp [hne])]
      exact ih (List.nodup_cons.mp hnodup).2 hmem

/-- C6: for a joining player and a non-empty set of other waiting entries
(queue entries always carry the non-empty string ids the join handler
enforces, and `Map` keys are unique), `findBestOpponent` returns a waiting
entry other than the joiner whose absolute rating difference to the joiner
is minimal, ties resolved in favour of the entry encountered first in the
queue's iteration order; in particular a 1500-rated joiner is paired with a
1510-rated waiter in preference to a 2000-rated one. -/
theorem findBestOpponent_spec (player : QueueEntry) (q : Queue)
    (hnodup : (q.map (fun e => e.id)).Nodup)
    (hids : ∀ e ∈ q, e.id ≠ "")
    (hne : q.filter (fun e => e.id ≠ player.id) ≠ []) :
    (∃ e i, findBestOpponent player q = some e ∧
      nth (q.filter (fun e => e.id ≠ player.id)) i = some e ∧
      (∀ x ∈ q.filter (fun e => e.id ≠ player.id),
        |entryRating e - entryRating player| ≤ |entryRating x - entryRating player|) ∧
      (∀ j x, j < i → nth (q.filter (fun e => e.id ≠ player.id)) j = some x →
        |entryRating e - entryRating player| < |entryRating x - entryRating player|)) ∧
    findBestOpponent { id := "me", name := "M", rating := some 1500, ts := 0 }
      [{ id := "a", name := "A", rating := some 1510, ts := 0 },
       { id := "b", name := "B", rating := some 2000, ts := 0 }] =
      some { id := "a", name := "A", rating := some 1510, ts := 0 } := by
  refine ⟨?_, by decide⟩
  rcases findBestAux_none player q with ⟨-, hemp⟩ | ⟨e, i, heq, hnth, hmin, hbefore⟩
  · exact absurd hemp hne
  · have hefilter : e ∈ q.filter (fun x => x.id ≠ player.id) := nth_mem hnth
    have heq2 : e ∈ q := List.mem_of_mem_filter hefilter
    have hide : e.id ≠ "" := hids e heq2
    refine ⟨e, i, ?_, hnth, hmin, hbefore⟩
    unfold findBestOpponent
    rw [heq]
    dsimp only []
    rw [if_neg hide]
    exact queueGet_nodup hnodup heq2

theorem findBestOpponent_spec_witness :
    (∃ e i, findBestOpponent
        { id := "me", name := "M", rating := some 1500, ts := 0 }
        [{ id := "a", name := "A", rating := some 1510, ts := 0 },
         { id := "b", name := "B", rating := some 2000, ts := 0 }] = some e ∧
      nth (([{ id := "a", name := "A", rating := some 1510, ts := 0 },
        { id := "b", name := "B", rating := some 2000, ts := 0 }] : Queue).filter
          (fun x => x.id ≠ "me")) i = some e ∧
      (∀ x ∈ (([{ id := "a", name := "A", rating := some 1510, ts := 0 },
        { id := "b", name := "B", rating := some 2000, ts := 0 }] : Queue).filter
          (fun x => x.id ≠ "me")),
        |entryRating e - 1500| ≤ |entryRating x - 1500|) ∧
      (∀ j x, j < i → nth (([{ id := "a", name := "A", rating := some 1510, ts := 0 },
        { id := "b", name := "B", rating := some 2000, ts := 0 }] : Queue).filter
          (fun x => x.id ≠ "me")) j = some x →
        |entryRating e - 1500| < |entryRating x - 1500|)) := by
  have h := (findBestOpponent_spec
    { id := "me", name := "M", rating := some 1500, ts := 0 }
    [{ id := "a", name := "A", rating := some 1510, ts := 0 },
     { id := "b", name := "B", rating := some 2000, ts := 0 }]
    (by decide) (by decide) (by decide)).1
  simpa using h

/-! ## C8: fen/load round trip -/

theorem digit_char_facts :
    ∀ k ≤ 8, (digitChar k).toNat = 48 + k ∧
      (1 ≤ k → ('1' ≤ digitChar k ∧ digitChar k ≤ '8')) ∧
      isWsChar (digitChar k) = false ∧ digitChar k ≠ '/' := by decide

theorem piece_char_facts :
    ∀ p ∈ pieceChars, ¬('1' ≤ p ∧ p ≤ '8') ∧ isWsChar p = false ∧ p ≠ '/' := by
  decide

theorem fenRowGo_chars {cells : List Cell} {e : Nat} {ch : Char}
    (hcells : ∀ cell ∈ cells, validCellB cell = true)
    (he : e + cells.length ≤ 8)
    (hch : ch ∈ fenRowGo cells e) :
    (∃ k, 1 ≤ k ∧ k ≤ 8 ∧ ch = digitChar k) ∨ ch ∈ pieceChars := by
  induction cells generalizing e with
  | nil =>
    simp only [fenRowGo] at hch
    by_cases h0 : 0 < e
    · rw [if_pos h0] at hch
      rw [List.mem_singleton] at hch
      exact Or.inl ⟨e, by omega, by omega, hch⟩
    · rw [if_neg h0] at hch
      exact absurd hch (List.not_mem_nil ch)
  | cons cell rest ih =>
    cases cell with
    | none =>
      simp only [fenRowGo] at hch
      exact ih (fun c hc => hcells c (List.mem_cons_of_mem _ hc)) (by simp at he; omega) hch
    | some p =>
      simp only [fenRowGo] at hch
      rcases List.mem_append.mp hch with h1 | h1
      · by_cases h0 : 0 < e
        · rw [if_pos h0] at h1
          rw [List.mem_singleton] at h1
          refine Or.inl ⟨e, by omega, by simp at he; omega, h1⟩
        · rw [if_neg h0] at h1
          exact absurd h1 (List.not_mem_nil ch)
      · rcases List.mem_cons.mp h1 with rfl | h2
        · right
          have hv := hcells (some ch) (List.mem_cons_self _ _)
          unfold validCellB at hv
          simpa using hv
        · exact ih (fun c hc => hcells c (List.mem_cons_of_mem _ hc))
            (by simp at he; omega) h2

theorem parseCells_fenRowGo (cells : List Cell) :
    ∀ (acc : List Cell) (e : Nat),
    (∀ cell ∈ cells, validCellB cell = true) →
    acc.length + e + cells.length ≤ 8 →
    parseCells (fenRowGo cells e) acc = acc ++ List.replicate e none ++ cells := by
  induction cells with
  | nil =>
    intro acc e hv hlen
    simp only [fenRowGo]
    by_cases h0 : 0 < e
    · rw [if_pos h0]
      unfold parseCells
      rw [if_neg (by simp at hlen; omega : ¬ 7 < acc.length)]
      rw [if_pos ((digit_char_facts e (by simp at hlen; omega)).2.1 h0)]
      rw [(digit_char_facts e (by simp at hlen; omega)).1]
      simp [parseCells]
    · rw [if_neg h0]
      have he0 : e = 0 := by omega
      subst he0
      simp [parseCells]
  | cons cell rest ih =>
    intro acc e hv hlen
    cases cell with
    | none =>
      simp only [fenRowGo]
      rw [ih acc (e + 1) (fun c hc => hv c (List.mem_cons_of_mem _ hc))
        (by simp at hlen ⊢; omega)]
      rw [List.replicate_succ' e none]
      simp
    | some p =>
      have hpc : p ∈ pieceChars := by
        have hx := hv (some p) (List.mem_cons_self _ _)
        unfold validCellB at hx
        simpa using hx
      have hplen : acc.length + e ≤ 7 := by simp at hlen; omega
      simp only [fenRowGo]
      by_cases h0 : 0 < e
      · rw [if_pos h0]
        show parseCells (digitChar e :: p :: fenRowGo rest 0) acc = _
        unfold parseCells
        rw [if_neg (by omega : ¬ 7 < acc.length)]
        rw [if_pos ((digit_char_facts e (by omega)).2.1 h0)]
        rw [(digit_char_facts e (by omega)).1]
        show parseCells (p :: fenRowGo rest 0)
          (acc ++ List.replicate (48 + e - 48) none) = _
        have he : 48 + e - 48 = e := by omega
        rw [he]
        unfold parseCells
        have hcc : ¬ 7 < (acc ++ List.replicate e none).length := by
          rw [List.length_append, List.length_replicate]
          omega
        rw [if_neg hcc]
        rw [if_neg (piece_char_facts p hpc).1]
        rw [ih (acc ++ List.replicate e none ++ [some p]) 0
          (fun c hc => hv c (List.mem_cons_of_mem _ hc))
          (by simp at hlen ⊢; omega)]
        simp
      · rw [if_neg h0]
        have he0 : e = 0 := by omega
        subst he0
        show parseCells (p :: fenRowGo rest 0) acc = _
        unfold parseCells
        rw [if_neg (by omega : ¬ 7 < acc.length)]
        rw [if_neg (piece_char_facts p hpc).1]
        rw [ih (acc ++ [some p]) 0
          (fun c hc => hv c (List.mem_cons_of_mem _ hc))
          (by simp at hlen ⊢; omega)]
        simp

theorem splitOnGo_no_sep (sep : Char) (t : List Char) :
    ∀ acc : List Char, sep ∉ t → splitOnGo sep t acc = [acc.reverse ++ t] := by
  induction t with
  | nil =>
    intro acc h
    simp [splitOnGo]
  | cons c rest ih =>
    intro acc h
    conv_lhs => unfold splitOnGo
    rw [if_neg (by
      intro hc
      apply h
      rw [← hc]
      exact List.mem_cons_self _ _)]
    rw [ih _ (fun hm => h (List.mem_cons_of_mem _ hm))]
    simp

theorem splitOnGo_sep_append (sep : Char) (t : List Char) :
    ∀ (rest acc : List Char), sep ∉ t →
    splitOnGo sep (t ++ sep :: rest) acc =
      (acc.reverse ++ t) :: splitOnGo sep rest [] := by
  induction t with
  | nil =>
    intro rest acc h
    show splitOnGo sep (sep :: rest) acc = _
    conv_lhs => unfold splitOnGo
    rw [if_pos rfl]
    simp
  | cons c t' ih =>
    intro rest acc h
    show splitOnGo sep (c :: (t' ++ sep :: rest)) acc = _
    conv_lhs => unfold splitOnGo
    rw [if_neg (by
      intro hc
      apply h
      rw [← hc]
      exact List.mem_cons_self _ _)]
    rw [ih rest _ (fun hm => h (List.mem_cons_of_mem _ hm))]
    simp

theorem splitOnC_fenPlacementGo (rows : List (List Cell))
    (hrows : rows ≠ [])
    (hnosep : ∀ row ∈ rows, '/' ∉ fenRowGo (row.take 8) 0) :
    splitOnC '/' (fenPlacementGo rows) =
      rows.map (fun row => fenRowGo (row.take 8) 0) := by
  induction rows with
  | nil => exact absurd rfl hrows
  | cons row rest ih =>
    cases rest with
    | nil =>
      show splitOnC '/' (fenRowGo (row.take 8) 0) = _
      unfold splitOnC
      rw [splitOnGo_no_sep _ _ _ (hnosep row (List.mem_cons_self _ _))]
      simp
    | cons r2 rest2 =>
      show splitOnC '/' (fenRowGo (row.take 8) 0 ++ '/' :: fenPlacementGo (r2 :: rest2)) = _
      unfold splitOnC
      rw [splitOnGo_sep_append _ _ _ _ (hnosep row (List.mem_cons_self _ _))]
      have ih2 := ih (by simp) (fun r hr => hnosep r (List.mem_cons_of_mem _ hr))
      unfold splitOnC at ih2
      rw [ih2]
      simp

theorem tokenizeGo_token (t : List Char) :
    ∀ (r acc : List Char),
    (∀ c ∈ t, isWsChar c = false) →
    acc.reverse ++ t ≠ [] →
    tokenizeGo (t ++ ' ' :: r) acc = (acc.reverse ++ t) :: tokenizeGo r [] := by
  induction t with
  | nil =>
    intro r acc ht hne
    show tokenizeGo (' ' :: r) acc = _
    conv_lhs => unfold tokenizeGo
    rw [if_pos (by decide : isWsChar ' ' = true)]
    have hacc : ¬ (acc = []) := by
      intro h
      subst h
      simp at hne
    rw [if_neg hacc]
    simp
  | cons c t' ih =>
    intro r acc ht hne
    show tokenizeGo (c :: (t' ++ ' ' :: r)) acc = _
    conv_lhs => unfold tokenizeGo
    rw [ht c (List.mem_cons_self _ _)]
    rw [if_neg (by simp)]
    rw [ih r (c :: acc) (fun x hx => ht x (List.mem_cons_of_mem _ hx)) (by simp)]
    simp

theorem trimChars_eq_self (c : Char) (mid : List Char) (d : Char)
    (hc : isWsChar c = false) (hd : isWsChar d = false) :
    trimChars (c :: (mid ++ [d])) = c :: (mid ++ [d]) := by
  unfold trimChars
  rw [List.dropWhile_cons]
  rw [hc]
  rw [if_neg (by simp)]
  rw [show (c :: (mid ++ [d])).reverse = d :: (mid.reverse ++ [c]) from by simp]
  rw [List.dropWhile_cons]
  rw [hd]
  rw [if_neg (by simp)]
  simp

theorem fenRowGo_ne_nil {cells : List Cell} {e : Nat}
    (h : cells ≠ [] ∨ 0 < e) : fenRowGo cells e ≠ [] := by
  induction cells generalizing e with
  | nil =>
    rcases h with h | h
    · exact absurd rfl h
    · simp only [fenRowGo]
      rw [if_pos h]
      simp
  | cons cell rest ih =>
    cases cell with
    | none =>
      simp only [fenRowGo]
      exact ih (Or.inr (by omega))
    | some p =>
      simp only [fenRowGo]
      simp

theorem fenPlacementGo_chars {rows : List (List Cell)} {ch : Char}
    (hv : ∀ row ∈ rows, ∀ cell ∈ row.take 8, validCellB cell = true)
    (hch : ch ∈ fenPlacementGo rows) :
    (∃ k, 1 ≤ k ∧ k ≤ 8 ∧ ch = digitChar k) ∨ ch ∈ pieceChars ∨ ch = '/' := by
  induction rows with
  | nil => exact absurd hch (List.not_mem_nil ch)
  | cons row rest ih =>
    have hlen8 : (row.take 8).length ≤ 8 := by
      rw [List.length_take]
      omega
    cases rest with
    | nil =>
      rcases fenRowGo_chars (hv row (List.mem_cons_self _ _)) (by omega) hch with h | h
      · exact Or.inl h
      · exact Or.inr (Or.inl h)
    | cons r2 rest2 =>
      rcases List.mem_append.mp hch with h1 | h1
      · rcases fenRowGo_chars (hv row (List.mem_cons_self _ _)) (by omega) h1 with h | h
        · exact Or.inl h
        · exact Or.inr (Or.inl h)
      · rcases List.mem_cons.mp h1 with rfl | h2
        · exact Or.inr (Or.inr rfl)
        · exact ih (fun r hr => hv r (List.mem_cons_of_mem _ hr)) h2

/-- C8: for every position reachable through applied moves, feeding the
output of `fen()` back into `load` succeeds and reproduces exactly the same
board contents and side to move. -/
theorem fen_load_roundtrip (st st0 : GameState) (hreach : Reachable st) :
    (load st0 (fen st)).2 = true ∧
    (load st0 (fen st)).1.board = st.board ∧
    (load st0 (fen st)).1.turnColor = st.turnColor := by
  obtain ⟨⟨hlen, hrows⟩, hturn⟩ := reachable_wf hreach
  have hvrows : ∀ row ∈ st.board, ∀ cell ∈ row.take 8, validCellB cell = true := by
    intro row hrow cell hcell
    exact (hrows row hrow).2 cell (List.take_subset 8 row hcell)
  have hchars : ∀ ch ∈ fenPlacementGo st.board,
      (∃ k, 1 ≤ k ∧ k ≤ 8 ∧ ch = digitChar k) ∨ ch ∈ pieceChars ∨ ch = '/' :=
    fun ch hch => fenPlacementGo_chars hvrows hch
  have hnws : ∀ ch ∈ fenPlacementGo st.board, isWsChar ch = false := by
    intro ch hch
    rcases hchars ch hch with ⟨k, hk1, hk8, rfl⟩ | h | rfl
    · exact (digit_char_facts k hk8).2.2.1
    · exact (piece_char_facts ch h).2.1
    · decide
  have hnosep : ∀ row ∈ st.board, '/' ∉ fenRowGo (row.take 8) 0 := by
    intro row hrow hmem
    have hlen8 : (row.take 8).length ≤ 8 := by
      rw [List.length_take]
      omega
    rcases fenRowGo_chars (hvrows row hrow) (by omega) hmem with ⟨k, hk1, hk8, hdk⟩ | h
    · exact (digit_char_facts k hk8).2.2.2 hdk.symm
    · exact (piece_char_facts _ h).2.2 rfl
  obtain ⟨c0, p1, hplace⟩ : ∃ c0 p1, fenPlacementGo st.board = c0 :: p1 := by
    cases hp : fenPlacementGo st.board with
    | cons c0 p1 => exact ⟨c0, p1, rfl⟩
    | nil =>
      exfalso
      cases hb : st.board with
      | nil =>
        rw [hb] at hlen
        simp at hlen
      | cons r0 rest =>
        cases rest with
        | nil =>
          rw [hb] at hlen
          simp at hlen
        | cons r1 rest2 =>
          rw [hb] at hp
          simp only [fenPlacementGo] at hp
          simp at hp
  have hc0ws : isWsChar c0 = false :=
    hnws c0 (by rw [hplace]; exact List.mem_cons_self _ _)
  have htcws : isWsChar (if st.turnColor = 'w' then 'w' else 'b') = false := by
    split <;> decide
  have hfen1 : fen st =
      c0 :: ((p1 ++ [' ', if st.turnColor = 'w' then 'w' else 'b',
        ' ', '-', ' ', '-', ' ', '0', ' ']) ++ ['1']) := by
    unfold fen
    rw [hplace]
    simp
  have hfen2 : fen st =
      (c0 :: p1) ++ ' ' :: ((if st.turnColor = 'w' then 'w' else 'b') ::
        [' ', '-', ' ', '-', ' ', '0', ' ', '1']) := by
    unfold fen
    rw [hplace]
  have htrim : trimChars (fen st) = fen st := by
    rw [hfen1, trimChars_eq_self _ _ _ hc0ws (by decide), ← hfen1]
  have hsplit : splitWsT (fen st) =
      (c0 :: p1) :: [if st.turnColor = 'w' then 'w' else 'b'] ::
        tokenizeGo ['-', ' ', '-', ' ', '0', ' ', '1'] [] := by
    have hcons : fen st = c0 :: (p1 ++ ' ' ::
        (([if st.turnColor = 'w' then 'w' else 'b']) ++
          ' ' :: ['-', ' ', '-', ' ', '0', ' ', '1'])) := by
      rw [hfen2]
      simp
    rw [hcons]
    unfold splitWsT
    dsimp only []
    show tokenizeGo ((c0 :: p1) ++ ' ' ::
      (([if st.turnColor = 'w' then 'w' else 'b']) ++
        ' ' :: ['-', ' ', '-', ' ', '0', ' ', '1'])) [] = _
    rw [tokenizeGo_token (c0 :: p1) _ []
      (fun x hx => hnws x (by rw [hplace]; exact hx)) (by simp)]
    rw [tokenizeGo_token [if st.turnColor = 'w' then 'w' else 'b'] _ []
      (by intro x hx; rw [List.mem_singleton] at hx; subst hx; exact htcws)
      (by simp)]
    simp
  have hrowsplit : splitOnC '/' (c0 :: p1) =
      st.board.map (fun row => fenRowGo (row.take 8) 0) := by
    rw [← hplace]
    exact splitOnC_fenPlacementGo st.board
      (by intro h; rw [h] at hlen; simp at hlen) hnosep
  have hparse : ∀ row ∈ st.board, parseRow (fenRowGo (row.take 8) 0) = row := by
    intro row hrow
    have hlen8 : row.length = 8 := (hrows row hrow).1
    have htake : row.take 8 = row := by
      rw [← hlen8]
      exact List.take_length row
    unfold parseRow
    rw [parseCells_fenRowGo (row.take 8) [] 0 (hvrows row hrow)
      (by rw [htake, hlen8]; simp)]
    rw [htake]
    simp [hlen8]
  have hboards : (st.board.map (fun row => fenRowGo (row.take 8) 0)).map parseRow =
      st.board := by
    rw [List.map_map]
    have hcg : ∀ row ∈ st.board,
        (parseRow ∘ fun row => fenRowGo (row.take 8) 0) row = id row :=
      fun row hrow => hparse row hrow
    rw [List.map_congr_left hcg, List.map_id]
  simp only [load]
  rw [htrim, hsplit]
  dsimp only [nth]
  simp only [Option.getD_some]
  rw [if_neg (by simp : ¬ ([if st.turnColor = 'w' then 'w' else 'b'] = ([] : List Char)))]
  rw [hrowsplit]
  rw [if_pos (by rw [List.length_map]; exact hlen)]
  refine ⟨rfl, ?_, ?_⟩
  · exact hboards
  · rcases hturn with ht | ht <;> rw [ht] <;> simp

theorem fen_load_roundtrip_witness :
    (load initialState (fen initialState)).2 = true ∧
    (load initialState (fen initialState)).1.board = initialState.board ∧
    (load initialState (fen initialState)).1.turnColor = initialState.turnColor :=
  fen_load_roundtrip initialState initialState Reachable.init
